import Mathlib

/-!
Shallow embedding of the list-view model of the `obsidian-calendar` fork
(list view + created-on-day index), together with proofs of the spec's
claims about it.

Embedded source files:
* `src/ui/listViewModel.ts` — `normalizeListViewSortOrder`,
  `normalizeListViewGroupingPreset`, `buildListItems` (with its inner
  helpers `getBucket`, `countCreatedNotesExcluding`, `countCreatedFiles`,
  the by-date dedup loop, the included-dates loops, the emission loop and
  the final sort), `pad2`, `getSegmentsForDate`, `getListGroupIdPathForDate`,
  `buildListGroups` (with its internal node tree and `finalize`).
* `src/ui/Calendar.svelte` — `isNoteLikeFile`, `shouldIndexFile`,
  `upsertSortedByPath`, `removeByPath`, `addFileToCreatedOnDayIndex`,
  `removeFileFromCreatedOnDayIndex`, `applyCreatedOnDayIndexOp`,
  `getCreatedNotesForItem`, and the view-state reconciliation block of
  `computeList`.

Modelling conventions:
* JavaScript numbers holding epoch-milliseconds / timestamps are `Int`.
* A JS `Record<string, T>` / `Map<string, T>` is an association list
  `List (String × T)`: lookup returns the first binding, assignment to an
  existing key replaces the binding in place (JS objects and `Map`s keep
  the original insertion position), assignment to a fresh key appends, and
  `delete` removes the binding.  Iteration (`Object.entries`, `.values()`)
  is iteration over the list in order.
* A JS `Set<string>` kept for iteration is a duplicate-free `List String`
  in insertion order (`pushUnique`).
* `moment` objects are opaque records of the accessors the code reads
  (`isValid`, `valueOf`, `year`, `month`, `quarter`, `isoWeekYear`,
  `isoWeek`) plus the locale-sensitive `format("MMMM")` rendering.
* Stable `Array.prototype.sort(cmp)` (ES2019+ guarantees stability) is
  `List.mergeSort le` with `le a b := cmp a b ≤ 0`.
-/

/-- Obsidian `TFile`, restricted to the fields this code reads: `path`,
`extension`, and `stat.ctime`.  A missing/zero creation timestamp is
modelled as `ctime = 0`: every use site in the source only tests the
timestamp for JS truthiness (`!ctime`, `ctime ? … : …`, `&& ctime`), under
which `0` and `undefined` behave identically. -/
structure TFile where
  path : String
  extension : String
  ctime : Int
  deriving Repr, DecidableEq

/-- Moment date object, modelled as the record of accessors the embedded
code reads.  `monthName` is the result of the locale-sensitive
`format("MMMM")`; all the other fields are the locale-independent numeric
accessors (`month0` is moment's 0-based `month()`). -/
structure Moment where
  valid : Bool
  epoch : Int
  year : Int
  month0 : Nat
  quarter : Nat
  isoWeekYear : Int
  isoWeek : Nat
  monthName : String
  deriving Repr, DecidableEq

/-- `CreatedOnDayBucket` from `listViewModel.ts`. -/
structure CreatedOnDayBucket where
  notes : List TFile
  files : List TFile
  deriving Repr, DecidableEq

/-- `DailyNoteCandidate` from `listViewModel.ts`. -/
structure DailyNoteCandidate where
  date : Moment
  dateUID : String
  dateStr : String
  epoch : Int
  year : Int
  file : TFile
  filePath : String
  mtime : Int
  qualifies : Bool
  deriving Repr, DecidableEq

/-- `ListItem` from `listViewModel.ts`. -/
structure ListItem where
  date : Moment
  dateUID : String
  dateStr : String
  epoch : Int
  year : Int
  file : Option TFile
  filePath : String
  mtime : Int
  dailyNoteExists : Bool
  createdNotesCount : Nat
  createdFilesCount : Nat
  deriving Repr, DecidableEq

/-- `ListViewSortOrder = "desc" | "asc"`. -/
inductive ListViewSortOrder where
  | desc
  | asc
  deriving Repr, DecidableEq

/-- `ListViewGroupingPreset` union type. -/
inductive ListViewGroupingPreset where
  | year
  | year_month
  | year_month_name
  | year_month_num_name
  | year_quarter
  | year_week
  deriving Repr, DecidableEq

/-- `normalizeListViewSortOrder` (listViewModel.ts:15-25): the `switch`
returns recognized strings unchanged and defaults everything else to
`"desc"`.  The TS parameter has type `unknown`; the model takes the string
carrier, every non-string value falling under the default arm exactly like
an unrecognized string. -/
def normalizeListViewSortOrder (sortOrder : String) : ListViewSortOrder :=
  if sortOrder = "asc" then ListViewSortOrder.asc
  else if sortOrder = "desc" then ListViewSortOrder.desc
  else ListViewSortOrder.desc

/-- `normalizeListViewGroupingPreset` (listViewModel.ts:221-235). -/
def normalizeListViewGroupingPreset (preset : String) : ListViewGroupingPreset :=
  if preset = "year" then ListViewGroupingPreset.year
  else if preset = "year_month" then ListViewGroupingPreset.year_month
  else if preset = "year_month_name" then ListViewGroupingPreset.year_month_name
  else if preset = "year_month_num_name" then ListViewGroupingPreset.year_month_num_name
  else if preset = "year_quarter" then ListViewGroupingPreset.year_quarter
  else if preset = "year_week" then ListViewGroupingPreset.year_week
  else ListViewGroupingPreset.year

/-! Association-list model of JS string-keyed objects and `Map`s. -/

/-- Lookup of `obj[k]` / `map.get(k)`: first binding with the key. -/
def getKey? {β : Type} (m : List (String × β)) (k : String) : Option β :=
  match m with
  | [] => none
  | (k', v) :: rest => if k' = k then some v else getKey? rest k

/-- Assignment `obj[k] = v` / `map.set(k, v)`: an existing key keeps its
position and gets the new value, a fresh key is appended. -/
def setKey {β : Type} (m : List (String × β)) (k : String) (v : β) :
    List (String × β) :=
  match m with
  | [] => [(k, v)]
  | (k', v') :: rest =>
    if k' = k then (k', v) :: rest else (k', v') :: setKey rest k v

/-- Deletion `delete obj[k]`. -/
def eraseKey {β : Type} (m : List (String × β)) (k : String) :
    List (String × β) :=
  m.filter (fun kv => kv.1 ≠ k)

/-- `Set.add`: append if absent, keeping insertion order. -/
def pushUnique (l : List String) (s : String) : List String :=
  if s ∈ l then l else l ++ [s]

/-! The `buildListItems` pipeline (listViewModel.ts:79-215).  The inner
closures of the source are lifted to top-level definitions; `params` keeps
the source's parameter record. -/

/-- Parameter record of `buildListItems`.  `createdOnDayIndex` has TS type
`Record<string, CreatedOnDayBucket> | null | undefined`, hence the
`Option`; `sortOrder` is an `unknown` later normalized. -/
structure BuildListItemsParams where
  dailyNoteCandidates : List DailyNoteCandidate
  createdOnDayIndex : Option (List (String × CreatedOnDayBucket))
  includeCreatedDays : Bool
  sortOrder : String
  parseDateStr : String → Moment
  getDayDateUID : Moment → String

/-- Inner closure `getBucket` (listViewModel.ts:96-101):
`if (!includeCreatedDays || !createdOnDayIndex) return null;
return createdOnDayIndex[dateStr] ?? null;`. -/
def getBucket (p : BuildListItemsParams) (dateStr : String) :
    Option CreatedOnDayBucket :=
  if p.includeCreatedDays = false then none
  else
    match p.createdOnDayIndex with
    | none => none
    | some idx => getKey? idx dateStr

/-- Inner closure `countCreatedNotesExcluding` (listViewModel.ts:103-124).
The source walks the notes once and subtracts at most 1 when it meets
`excludePath`, then clamps with `Math.max(0, count)`; truncated `Nat`
subtraction is exactly that clamp. -/
def countCreatedNotesExcluding (bucket : Option CreatedOnDayBucket)
    (excludePath : String) : Nat :=
  let notes := match bucket with
    | none => []
    | some b => b.notes
  if notes.length = 0 then 0
  else if excludePath = "" then notes.length
  else if notes.any (fun f => f.path == excludePath) then notes.length - 1
  else notes.length

/-- Inner closure `countCreatedFiles` (listViewModel.ts:126-128). -/
def countCreatedFiles (bucket : Option CreatedOnDayBucket) : Nat :=
  match bucket with
  | none => 0
  | some b => b.files.length

/-- One step of the by-date dedup loop (listViewModel.ts:130-137): keep the
previous candidate unless the incoming one has a strictly greater mtime
(`(candidate.mtime ?? 0) > (prev.mtime ?? 0)`). -/
def byDateStep (m : List (String × DailyNoteCandidate))
    (c : DailyNoteCandidate) : List (String × DailyNoteCandidate) :=
  match getKey? m c.dateStr with
  | none => m ++ [(c.dateStr, c)]
  | some prev => if prev.mtime < c.mtime then setKey m c.dateStr c else m

/-- The `byDate` map after the dedup loop (listViewModel.ts:130-137). -/
def dedupCandidatesByDate (cands : List DailyNoteCandidate) :
    List (String × DailyNoteCandidate) :=
  cands.foldl byDateStep []

/-- The `includedDates` set (listViewModel.ts:139-157): the date strings of
qualifying deduplicated candidates, then — when `includeCreatedDays` holds
and the index is non-null — every index key whose bucket has at least one
raw note or file. -/
def computeIncludedDates (byDate : List (String × DailyNoteCandidate))
    (p : BuildListItemsParams) : List String :=
  let afterQual := byDate.foldl
    (fun acc kv => if kv.2.qualifies then pushUnique acc kv.2.dateStr else acc)
    []
  if p.includeCreatedDays then
    match p.createdOnDayIndex with
    | some idx =>
      idx.foldl
        (fun acc kv =>
          if 0 < kv.2.notes.length ∨ 0 < kv.2.files.length then
            pushUnique acc kv.1
          else acc)
        afterQual
    | none => afterQual
  else afterQual

/-- One iteration of the emission loop (listViewModel.ts:161-208): a day
with a deduplicated candidate becomes a daily-note row; otherwise the date
key is parsed and, when valid, a placeholder row with the empty-path /
zero-mtime sentinel is produced; an invalid parse emits nothing. -/
def emitItem (p : BuildListItemsParams)
    (byDate : List (String × DailyNoteCandidate)) (dateStr : String) :
    Option ListItem :=
  match getKey? byDate dateStr with
  | some candidate =>
    let bucket := getBucket p candidate.dateStr
    some
      { date := candidate.date
        dateUID := candidate.dateUID
        dateStr := candidate.dateStr
        epoch := candidate.epoch
        year := candidate.year
        file := some candidate.file
        filePath := candidate.filePath
        mtime := candidate.mtime
        dailyNoteExists := true
        createdNotesCount := countCreatedNotesExcluding bucket candidate.filePath
        createdFilesCount := countCreatedFiles bucket }
  | none =>
    let date := p.parseDateStr dateStr
    if date.valid = false then none
    else
      let bucket := getBucket p dateStr
      some
        { date := date
          dateUID := p.getDayDateUID date
          dateStr := dateStr
          epoch := date.epoch
          year := date.year
          file := none
          filePath := ""
          mtime := 0
          dailyNoteExists := false
          createdNotesCount := countCreatedNotesExcluding bucket ""
          createdFilesCount := countCreatedFiles bucket }

/-- The comparator of the final sort (listViewModel.ts:211-213) recast for
a stable sort: `a` may stay before `b` exactly when the JS comparator is
`≤ 0`. -/
def listItemLe (ord : ListViewSortOrder) (a b : ListItem) : Bool :=
  match ord with
  | ListViewSortOrder.asc => decide (a.epoch ≤ b.epoch)
  | ListViewSortOrder.desc => decide (b.epoch ≤ a.epoch)

/-- The final `items.sort(...)` (listViewModel.ts:210-214), as the stable
merge sort. -/
def sortListItems (ord : ListViewSortOrder) (items : List ListItem) :
    List ListItem :=
  items.mergeSort (listItemLe ord)

/-- `buildListItems` (listViewModel.ts:79-215). -/
def buildListItems (p : BuildListItemsParams) : List ListItem :=
  let byDate := dedupCandidatesByDate p.dailyNoteCandidates
  let includedDates := computeIncludedDates byDate p
  let items := includedDates.filterMap (emitItem p byDate)
  sortListItems (normalizeListViewSortOrder p.sortOrder) items

/-! The grouping engine (listViewModel.ts:217-408). -/

/-- `pad2` (listViewModel.ts:217-219): `String(n).padStart(2, "0")`, which
on the naturals the code feeds it (1-based month, ISO week) is a leading
zero below 10. -/
def pad2 (n : Nat) : String :=
  if n < 10 then "0" ++ toString n else toString n

/-- `GroupSegment` (listViewModel.ts:237). -/
structure GroupSegment where
  idPart : String
  label : String
  deriving Repr, DecidableEq

/-- `getSegmentsForDate` (listViewModel.ts:239-298). -/
def getSegmentsForDate (date : Moment) (preset : ListViewGroupingPreset) :
    List GroupSegment :=
  match preset with
  | ListViewGroupingPreset.year =>
    let year := toString date.year
    [{ idPart := year, label := year }]
  | ListViewGroupingPreset.year_month =>
    let year := toString date.year
    let month := pad2 (date.month0 + 1)
    [{ idPart := year, label := year }, { idPart := month, label := month }]
  | ListViewGroupingPreset.year_month_name =>
    let year := toString date.year
    let monthId := pad2 (date.month0 + 1)
    let monthLabel := date.monthName
    [{ idPart := year, label := year },
     { idPart := monthId, label := monthLabel }]
  | ListViewGroupingPreset.year_month_num_name =>
    let year := toString date.year
    let monthId := pad2 (date.month0 + 1)
    let monthLabel := date.monthName
    [{ idPart := year, label := year },
     { idPart := monthId, label := monthId ++ "-" ++ monthLabel }]
  | ListViewGroupingPreset.year_quarter =>
    let year := toString date.year
    let q := "Q" ++ toString date.quarter
    [{ idPart := year, label := year }, { idPart := q, label := q }]
  | ListViewGroupingPreset.year_week =>
    let isoYear := toString date.isoWeekYear
    let week := pad2 date.isoWeek
    [{ idPart := isoYear, label := isoYear },
     { idPart := week, label := "W" ++ week }]

/-- `getListGroupIdPathForDate` (listViewModel.ts:300-315): the cumulative
`parts.join("/")` prefixes of the segment id parts. -/
def getListGroupIdPathForDate (date : Moment) (preset : String) :
    List String :=
  let normalized := normalizeListViewGroupingPreset preset
  let segments := getSegmentsForDate date normalized
  (segments.foldl
      (fun (acc : List String × List String) seg =>
        let parts := acc.2 ++ [seg.idPart]
        (acc.1 ++ [String.intercalate "/" parts], parts))
      ([], [])).1

/-- `ListGroupNodeInternal` (listViewModel.ts:317-323); the children `Map`
is the association list, in insertion order.  `maxEpoch = none` is the
`-Infinity` starting point, which every touch immediately replaces. -/
inductive GNodeInternal where
  | mk (id : String) (label : String)
      (children : List (String × GNodeInternal)) (items : List ListItem)
      (maxEpoch : Option Int)

def GNodeInternal.id : GNodeInternal → String
  | GNodeInternal.mk i _ _ _ _ => i

def GNodeInternal.label : GNodeInternal → String
  | GNodeInternal.mk _ l _ _ _ => l

def GNodeInternal.children : GNodeInternal → List (String × GNodeInternal)
  | GNodeInternal.mk _ _ c _ _ => c

def GNodeInternal.items : GNodeInternal → List ListItem
  | GNodeInternal.mk _ _ _ it _ => it

def GNodeInternal.maxEpoch : GNodeInternal → Option Int
  | GNodeInternal.mk _ _ _ _ m => m

/-- The per-item insertion walk of `buildListGroups`
(listViewModel.ts:347-381): walk the segment path, creating or reusing the
node keyed by the cumulative id, refreshing its label, raising its
`maxEpoch` (`Math.max(node.maxEpoch ?? -Infinity, item.epoch)`), recursing
into its children for the remaining segments and pushing the item at the
final segment's node. -/
def insertSegs (item : ListItem) (parts : List String)
    (segs : List GroupSegment) (m : List (String × GNodeInternal)) :
    List (String × GNodeInternal) :=
  match segs with
  | [] => m
  | seg :: rest =>
    let parts' := parts ++ [seg.idPart]
    let id := String.intercalate "/" parts'
    let node0 : GNodeInternal :=
      match getKey? m id with
      | some n =>
        GNodeInternal.mk id seg.label n.children n.items n.maxEpoch
      | none => GNodeInternal.mk id seg.label [] [] none
    let newMax : Int :=
      match node0.maxEpoch with
      | none => item.epoch
      | some v => max v item.epoch
    match rest with
    | [] =>
      setKey m id
        (GNodeInternal.mk id node0.label node0.children
          (node0.items ++ [item]) (some newMax))
    | _ :: _ =>
      setKey m id
        (GNodeInternal.mk id node0.label
          (insertSegs item parts' rest node0.children) node0.items
          (some newMax))

/-- `ListGroupNode` (listViewModel.ts:62-77), the finalized output node. -/
inductive ListGroupNode where
  | mk (id : String) (label : String) (groups : List ListGroupNode)
      (items : List ListItem) (dailyNoteCount : Nat) (maxEpoch : Option Int)

def ListGroupNode.id : ListGroupNode → String
  | ListGroupNode.mk i _ _ _ _ _ => i

def ListGroupNode.label : ListGroupNode → String
  | ListGroupNode.mk _ l _ _ _ _ => l

def ListGroupNode.groups : ListGroupNode → List ListGroupNode
  | ListGroupNode.mk _ _ g _ _ _ => g

def ListGroupNode.items : ListGroupNode → List ListItem
  | ListGroupNode.mk _ _ _ it _ _ => it

def ListGroupNode.dailyNoteCount : ListGroupNode → Nat
  | ListGroupNode.mk _ _ _ _ c _ => c

def ListGroupNode.maxEpoch : ListGroupNode → Option Int
  | ListGroupNode.mk _ _ _ _ _ m => m

/-- `compareGroupByEpoch` (listViewModel.ts:333-340) on internal nodes,
recast for a stable sort (`a` may stay before `b` iff the comparator on
`maxEpoch ?? 0` is `≤ 0`). -/
def groupLeInternal (ord : ListViewSortOrder) (a b : GNodeInternal) : Bool :=
  match ord with
  | ListViewSortOrder.asc => decide (a.maxEpoch.getD 0 ≤ b.maxEpoch.getD 0)
  | ListViewSortOrder.desc => decide (b.maxEpoch.getD 0 ≤ a.maxEpoch.getD 0)

/-- `compareGroupByEpoch` on finalized nodes.  `finalize` copies `maxEpoch`
verbatim, so sorting the finalized children with this key is the same
ordering the source obtains by sorting the internal children first
(`groupLeInternal_eq_groupLeFinal` below makes this exchange precise via
`List.map_mergeSort`). -/
def groupLeFinal (ord : ListViewSortOrder) (a b : ListGroupNode) : Bool :=
  match ord with
  | ListViewSortOrder.asc => decide (a.maxEpoch.getD 0 ≤ b.maxEpoch.getD 0)
  | ListViewSortOrder.desc => decide (b.maxEpoch.getD 0 ≤ a.maxEpoch.getD 0)

mutual

/-- `finalize` (listViewModel.ts:383-405).  The source sorts the internal
children and then maps `finalize` over them; since `finalize` preserves
`maxEpoch` — the only field the comparator reads — this is the same as
finalizing the children in map order (structural recursion) and sorting
the results, which is how it is phrased here. -/
def finalize (ord : ListViewSortOrder) : GNodeInternal → ListGroupNode
  | GNodeInternal.mk id label children items maxE =>
    let groups := (finalizeChildren ord children).mergeSort (groupLeFinal ord)
    let sortedItems :=
      if groups.isEmpty then items.mergeSort (listItemLe ord) else []
    let dailyNoteCount :=
      if groups.isEmpty then
        items.foldl (fun sum it => sum + (if it.dailyNoteExists then 1 else 0)) 0
      else groups.foldl (fun sum g => sum + g.dailyNoteCount) 0
    ListGroupNode.mk id label groups sortedItems dailyNoteCount maxE

/-- Finalization of a children map's values, in map order. -/
def finalizeChildren (ord : ListViewSortOrder) :
    List (String × GNodeInternal) → List ListGroupNode
  | [] => []
  | (_, n) :: rest => finalize ord n :: finalizeChildren ord rest
end

/-- `buildListGroups` (listViewModel.ts:325-408). -/
def buildListGroups (items : List ListItem) (preset : String)
    (sortOrder : String) : List ListGroupNode :=
  let normalized := normalizeListViewGroupingPreset preset
  let normalizedSortOrder := normalizeListViewSortOrder sortOrder
  let root := items.foldl
    (fun m item => insertSegs item [] (getSegmentsForDate item.date normalized) m)
    []
  (finalizeChildren normalizedSortOrder root).mergeSort
    (groupLeFinal normalizedSortOrder)

/-! Embedding of the created-on-day index maintenance and the list-view
state reconciliation from `src/ui/Calendar.svelte`. -/

/-- `isNoteLikeFile` (Calendar.svelte:734-737). -/
def isNoteLikeFile (file : TFile) : Bool :=
  let ext := file.extension.toLower
  ext == "md" || ext == "canvas"

/-- `shouldIndexFile` (Calendar.svelte:739-751). -/
def shouldIndexFile (file : TFile) : Bool :=
  if file.path.startsWith ".obsidian/" then false
  else if file.path.startsWith ".trash/" then false
  else true

/-- Path order used by the index's sorted arrays.  The source orders by
`path.localeCompare(path)`, a total order on strings; it is modelled by
Lean's total lexicographic order on `String`. -/
def pathLe (a b : TFile) : Prop := a.path ≤ b.path

instance : DecidableRel pathLe := fun a b =>
  inferInstanceAs (Decidable (a.path ≤ b.path))

instance : IsTotal TFile pathLe :=
  ⟨fun a b => le_total a.path b.path⟩

instance : IsTrans TFile pathLe :=
  ⟨fun _ _ _ hab hbc => le_trans hab hbc⟩

/-- `upsertSortedByPath` (Calendar.svelte:778-794): drop any entry with the
file's path, then splice the file in at the lower bound found by binary
search — on the sorted arrays the index maintains, that is ordered
insertion before the first entry whose path is `≥` the new one. -/
def upsertSortedByPath (arr : List TFile) (file : TFile) : List TFile :=
  List.orderedInsert pathLe file (arr.filter (fun f => f.path != file.path))

/-- `removeByPath` (Calendar.svelte:796-805): remove the first entry with
the path (`findIndex` + `splice`), returning the array unchanged when the
path is absent. -/
def removeByPath (arr : List TFile) (path : String) : List TFile :=
  arr.eraseP (fun f => f.path == path)

/-- `addFileToCreatedOnDayIndex` (Calendar.svelte:807-836).  `fmt` stands
for `formatLocalDateYYYYMMDD` (Calendar.svelte:772-775), whose output
depends on the host's local timezone; the claims hold for every such
formatting function, so it is passed in. -/
def addFileToCreatedOnDayIndex (fmt : Int → String)
    (index : List (String × CreatedOnDayBucket)) (file : TFile) :
    List (String × CreatedOnDayBucket) :=
  if shouldIndexFile file = false then index
  else if file.ctime = 0 then index
  else
    let dateStr := fmt file.ctime
    let prev := (getKey? index dateStr).getD { notes := [], files := [] }
    let nextBucket : CreatedOnDayBucket :=
      if isNoteLikeFile file then
        { notes := upsertSortedByPath prev.notes file
          files := prev.files.filter (fun f => f.path != file.path) }
      else
        { notes := prev.notes.filter (fun f => f.path != file.path)
          files := upsertSortedByPath prev.files file }
    setKey index dateStr nextBucket

/-- The `removeFromBucket` closure (Calendar.svelte:850-855). -/
def removeFromBucket (bucket : CreatedOnDayBucket) (path : String) :
    CreatedOnDayBucket :=
  { notes := removeByPath bucket.notes path
    files := removeByPath bucket.files path }

/-- The fallback full scan of `removeFileFromCreatedOnDayIndex`
(Calendar.svelte:877-900): every bucket is patched; entries where nothing
changed keep their original bucket, entries emptied in both arrays are
deleted.  (`changedAny` only decides whether the original object reference
is returned; the contents are the same either way.) -/
def removeScanAll (index : List (String × CreatedOnDayBucket))
    (path : String) : List (String × CreatedOnDayBucket) :=
  match index with
  | [] => []
  | kv :: rest =>
    let nextBucket := removeFromBucket kv.2 path
    if nextBucket.notes.length = kv.2.notes.length ∧
        nextBucket.files.length = kv.2.files.length then
      kv :: removeScanAll rest path
    else if nextBucket.notes.length = 0 ∧ nextBucket.files.length = 0 then
      removeScanAll rest path
    else (kv.1, nextBucket) :: removeScanAll rest path

/-- The `ctime ? formatLocalDateYYYYMMDD(ctime) : null` resolution at the
top of `removeFileFromCreatedOnDayIndex` (Calendar.svelte:847); `some 0`
and `none` both fail the JS truthiness test. -/
def removeFileDateStr (ctime : Option Int) (fmt : Int → String) :
    Option String :=
  match ctime with
  | some t => if t = 0 then none else some (fmt t)
  | none => none

/-- `removeFileFromCreatedOnDayIndex` (Calendar.svelte:838-901). -/
def removeFileFromCreatedOnDayIndex (fmt : Int → String)
    (index : List (String × CreatedOnDayBucket)) (path : String)
    (ctime : Option Int) : List (String × CreatedOnDayBucket) :=
  if path = "" then index
  else
    match removeFileDateStr ctime fmt with
    | some dateStr =>
      match getKey? index dateStr with
      | some prev =>
        let nextBucket := removeFromBucket prev path
        if nextBucket.notes.length = prev.notes.length ∧
            nextBucket.files.length = prev.files.length then index
        else if nextBucket.notes.length = 0 ∧ nextBucket.files.length = 0 then
          eraseKey index dateStr
        else setKey index dateStr nextBucket
      | none => removeScanAll index path
    | none => removeScanAll index path

/-- `CreatedOnDayIndexOp` (Calendar.svelte:579-582). -/
inductive CreatedOnDayIndexOp where
  | create (file : TFile)
  | delete (path : String) (ctime : Option Int)
  | rename (file : TFile) (oldPath : String) (ctime : Option Int)

/-- `applyCreatedOnDayIndexOp` (Calendar.svelte:904-926).  A rename
resolves `op.ctime ?? op.file.stat?.ctime`, removes the old and (defensive)
new path for that day, then re-adds the file when it is still eligible. -/
def applyCreatedOnDayIndexOp (fmt : Int → String)
    (index : List (String × CreatedOnDayBucket)) (op : CreatedOnDayIndexOp) :
    List (String × CreatedOnDayBucket) :=
  match op with
  | CreatedOnDayIndexOp.create file => addFileToCreatedOnDayIndex fmt index file
  | CreatedOnDayIndexOp.delete path ctime =>
    removeFileFromCreatedOnDayIndex fmt index path ctime
  | CreatedOnDayIndexOp.rename file oldPath ctime0 =>
    let ctime : Int :=
      match ctime0 with
      | some t => t
      | none => file.ctime
    let next1 := removeFileFromCreatedOnDayIndex fmt index oldPath (some ctime)
    let next2 := removeFileFromCreatedOnDayIndex fmt next1 file.path (some ctime)
    if shouldIndexFile file ∧ ctime ≠ 0 then
      addFileToCreatedOnDayIndex fmt next2 file
    else next2

/-- `getCreatedNotesForItem` (Calendar.svelte:1422-1432).
`includeCreatedDays` stands for `$settings.listViewIncludeCreatedDays`. -/
def getCreatedNotesForItem (includeCreatedDays : Bool)
    (createdOnDayIndex : List (String × CreatedOnDayBucket))
    (item : ListItem) : List TFile :=
  if includeCreatedDays = false then []
  else
    match getKey? createdOnDayIndex item.dateStr with
    | none => []
    | some bucket =>
      if bucket.notes.length = 0 then []
      else bucket.notes.filter (fun f => f.path != item.filePath)

/-- `DayChildOpenState` (Calendar.svelte:569). -/
structure DayChildOpenState where
  files : Bool
  deriving Repr, DecidableEq

/-- One step of the seeding loops of `computeList`: a key with no entry
gets its default, an existing entry is left alone
(`if (next[id] === undefined) next[id] = dflt(id)`). -/
def seedMissingStep {β : Type} (dflt : String → β) (m : List (String × β))
    (id : String) : List (String × β) :=
  match getKey? m id with
  | none => setKey m id (dflt id)
  | some _ => m

/-- The group open-state reconciliation of `computeList`
(Calendar.svelte:1327-1341): copy the persisted map, seed every group id
with no entry `open` iff it lies on today's id path, then prune entries
whose id is no longer a group id. -/
def reconcileGroupOpenState (groupIds : List String)
    (todayPath : List String) (st : List (String × Bool)) :
    List (String × Bool) :=
  (groupIds.foldl (seedMissingStep (fun id => todayPath.contains id)) st).filter
    (fun kv => groupIds.contains kv.1)

/-- The day open-state reconciliation of `computeList`
(Calendar.svelte:1344-1366): seed each item's dateUID closed when missing,
then prune entries for dateUIDs with no item. -/
def reconcileDayOpenState (items : List ListItem)
    (st : List (String × Bool)) : List (String × Bool) :=
  let dayUIDs := items.map ListItem.dateUID
  (dayUIDs.foldl (seedMissingStep (fun _ => false)) st).filter
    (fun kv => dayUIDs.contains kv.1)

/-- One step of the day child open-state loop of `computeList`
(Calendar.svelte:1354-1359): the entry is rewritten to
`{ files: !!prev.files }` when present and seeded `{ files: false }` when
absent. -/
def dayChildStep (m : List (String × DayChildOpenState)) (uid : String) :
    List (String × DayChildOpenState) :=
  match getKey? m uid with
  | some prev => setKey m uid { files := prev.files }
  | none => setKey m uid { files := false }

/-- The day child open-state reconciliation of `computeList`
(Calendar.svelte:1346-1370): rewrite each item's entry, then prune entries
for dateUIDs with no item. -/
def reconcileDayChildOpenState (items : List ListItem)
    (st : List (String × DayChildOpenState)) :
    List (String × DayChildOpenState) :=
  let dayUIDs := items.map ListItem.dateUID
  (dayUIDs.foldl dayChildStep st).filter (fun kv => dayUIDs.contains kv.1)

/-! Supporting lemmas about the association-list model. -/

theorem getKey?_eq_none_iff {β : Type} (m : List (String × β)) (k : String) :
    getKey? m k = none ↔ k ∉ m.map Prod.fst := by
  induction m with
  | nil => simp [getKey?]
  | cons kv rest ih =>
    obtain ⟨k', v⟩ := kv
    by_cases h : k' = k
    · subst h
      simp [getKey?]
    · simp [getKey?, h, ih, Ne.symm h]

theorem mem_of_getKey?_eq_some {β : Type} {m : List (String × β)}
    {k : String} {v : β} (h : getKey? m k = some v) : (k, v) ∈ m := by
  induction m with
  | nil => simp [getKey?] at h
  | cons kv rest ih =>
    obtain ⟨k', v'⟩ := kv
    by_cases hk : k' = k
    · subst hk
      simp [getKey?] at h
      simp [h]
    · simp [getKey?, hk] at h
      simp [ih h]

theorem getKey?_eq_some_of_mem {β : Type} {m : List (String × β)}
    {k : String} {v : β} (hnd : (m.map Prod.fst).Nodup) (h : (k, v) ∈ m) :
    getKey? m k = some v := by
  induction m with
  | nil => simp at h
  | cons kv rest ih =>
    obtain ⟨k', v'⟩ := kv
    simp at hnd
    rcases List.mem_cons.mp h with h1 | h1
    · obtain ⟨hk, hv⟩ := Prod.mk.injEq .. ▸ h1
      subst hk
      subst hv
      simp [getKey?]
    · have hk : k' ≠ k := by
        intro he
        subst he
        exact hnd.1 v h1
      simp [getKey?, hk, ih hnd.2 h1]

theorem mem_setKey_self {β : Type} (m : List (String × β)) (k : String)
    (v : β) : (k, v) ∈ setKey m k v := by
  induction m with
  | nil => simp [setKey]
  | cons kv rest ih =>
    obtain ⟨k', v'⟩ := kv
    by_cases h : k' = k
    · subst h
      simp [setKey]
    · simp [setKey, h]
      right
      exact ih

theorem mem_of_mem_setKey {β : Type} {m : List (String × β)} {k : String}
    {v : β} {kv : String × β} (h : kv ∈ setKey m k v) :
    kv ∈ m ∨ kv = (k, v) := by
  induction m with
  | nil => simpa [setKey] using h
  | cons kv' rest ih =>
    obtain ⟨k', v'⟩ := kv'
    by_cases hk : k' = k
    · subst hk
      simp [setKey] at h
      rcases h with h | h
      · right
        simp [h]
      · left
        simp [h]
    · simp [setKey, hk] at h
      rcases h with h | h
      · left
        simp [h]
      · rcases ih h with h1 | h1
        · left
          simp [h1]
        · right
          exact h1

theorem mem_setKey_of_ne {β : Type} {m : List (String × β)} {k : String}
    {v : β} {a : String} {b : β} (h : (a, b) ∈ m) (hne : a ≠ k) :
    (a, b) ∈ setKey m k v := by
  induction m with
  | nil => simp at h
  | cons kv' rest ih =>
    obtain ⟨k', v'⟩ := kv'
    by_cases hk : k' = k
    · subst hk
      rcases List.mem_cons.mp h with h1 | h1
      · exact absurd (congrArg Prod.fst h1) hne
      · simp [setKey]
        right
        exact h1
    · simp only [setKey, if_neg hk]
      rcases List.mem_cons.mp h with h1 | h1
      · exact h1 ▸ List.mem_cons_self _ _
      · exact List.mem_cons_of_mem _ (ih h1)

theorem setKey_map_fst_of_mem {β : Type} {m : List (String × β)}
    {k : String} (v : β) (h : k ∈ m.map Prod.fst) :
    (setKey m k v).map Prod.fst = m.map Prod.fst := by
  induction m with
  | nil => simp at h
  | cons kv rest ih =>
    obtain ⟨k', v'⟩ := kv
    by_cases hk : k' = k
    · subst hk
      simp [setKey]
    · rw [List.map_cons] at h
      have h1 : k ∈ rest.map Prod.fst := by
        rcases List.mem_cons.mp h with h2 | h2
        · exact absurd h2.symm hk
        · exact h2
      simp [setKey, hk, ih h1]

theorem setKey_map_fst_of_not_mem {β : Type} {m : List (String × β)}
    {k : String} (v : β) (h : k ∉ m.map Prod.fst) :
    (setKey m k v).map Prod.fst = m.map Prod.fst ++ [k] := by
  induction m with
  | nil => simp [setKey]
  | cons kv rest ih =>
    obtain ⟨k', v'⟩ := kv
    rw [List.map_cons] at h
    have hk : k' ≠ k := fun he => h (he ▸ List.mem_cons_self _ _)
    have h2 : k ∉ rest.map Prod.fst := fun hm => h (List.mem_cons_of_mem _ hm)
    simp [setKey, hk, ih h2]

theorem getKey?_setKey_self {β : Type} (m : List (String × β)) (k : String)
    (v : β) : getKey? (setKey m k v) k = some v := by
  induction m with
  | nil => simp [setKey, getKey?]
  | cons kv rest ih =>
    obtain ⟨k', v'⟩ := kv
    by_cases hk : k' = k
    · subst hk
      simp [setKey, getKey?]
    · simp [setKey, getKey?, hk, ih]

theorem getKey?_setKey_of_ne {β : Type} (m : List (String × β))
    {k k' : String} (v : β) (h : k' ≠ k) :
    getKey? (setKey m k v) k' = getKey? m k' := by
  induction m with
  | nil => simp [setKey, getKey?, Ne.symm h]
  | cons kv rest ih =>
    obtain ⟨k0, v0⟩ := kv
    by_cases hk : k0 = k
    · subst hk
      simp [setKey, getKey?, Ne.symm h]
    · by_cases hk' : k0 = k'
      · subst hk'
        simp [setKey, getKey?, hk]
      · simp [setKey, getKey?, hk, hk', ih]

theorem setKey_eq_self {β : Type} {m : List (String × β)} {k : String}
    {v : β} (h : getKey? m k = some v) : setKey m k v = m := by
  induction m with
  | nil => simp [getKey?] at h
  | cons kv rest ih =>
    obtain ⟨k', v'⟩ := kv
    by_cases hk : k' = k
    · subst hk
      simp [getKey?] at h
      simp [setKey, h]
    · simp [getKey?, hk] at h
      simp [setKey, hk, ih h]

theorem mem_pushUnique {l : List String} {s d : String} :
    d ∈ pushUnique l s ↔ d ∈ l ∨ d = s := by
  unfold pushUnique
  by_cases h : s ∈ l
  · simp [h]
    intro he
    subst he
    exact h
  · simp [h]

theorem nodup_pushUnique {l : List String} (s : String) (h : l.Nodup) :
    (pushUnique l s).Nodup := by
  unfold pushUnique
  by_cases hs : s ∈ l
  · simpa [hs]
  · simp only [if_neg hs]
    exact List.Nodup.append h (List.nodup_singleton s)
      (fun a ha hb => hs ((List.mem_singleton.mp hb) ▸ ha))

/-! Claim C10: totality of the normalizers and silent defaulting. -/

theorem normalizeListViewSortOrder_default {s : String} (h1 : s ≠ "asc")
    (h2 : s ≠ "desc") : normalizeListViewSortOrder s = ListViewSortOrder.desc := by
  simp [normalizeListViewSortOrder, h1, h2]

theorem normalizeListViewGroupingPreset_default {s : String}
    (h1 : s ≠ "year") (h2 : s ≠ "year_month") (h3 : s ≠ "year_month_name")
    (h4 : s ≠ "year_month_num_name") (h5 : s ≠ "year_quarter")
    (h6 : s ≠ "year_week") :
    normalizeListViewGroupingPreset s = ListViewGroupingPreset.year := by
  simp [normalizeListViewGroupingPreset, h1, h2, h3, h4, h5, h6]

/-- C10: `normalizeListViewSortOrder` maps every input other than `"asc"`
or `"desc"` to `"desc"`, and `normalizeListViewGroupingPreset` maps every
input outside the six recognized presets to `"year"`; consequently
`buildListItems` and `buildListGroups` are total in their `sortOrder` and
`preset` arguments and silently default on unrecognized values, producing
the same output as with `"desc"` / `"year"`. -/
theorem C10_normalizers_default :
    (∀ s : String, s ≠ "asc" → s ≠ "desc" →
      normalizeListViewSortOrder s = ListViewSortOrder.desc) ∧
    (∀ s : String, s ≠ "year" → s ≠ "year_month" → s ≠ "year_month_name" →
      s ≠ "year_month_num_name" → s ≠ "year_quarter" → s ≠ "year_week" →
      normalizeListViewGroupingPreset s = ListViewGroupingPreset.year) ∧
    (∀ p : BuildListItemsParams, p.sortOrder ≠ "asc" → p.sortOrder ≠ "desc" →
      buildListItems p = buildListItems { p with sortOrder := "desc" }) ∧
    (∀ (items : List ListItem) (preset s : String), s ≠ "asc" → s ≠ "desc" →
      buildListGroups items preset s = buildListGroups items preset "desc") ∧
    (∀ (items : List ListItem) (ps s : String), ps ≠ "year" →
      ps ≠ "year_month" → ps ≠ "year_month_name" →
      ps ≠ "year_month_num_name" → ps ≠ "year_quarter" → ps ≠ "year_week" →
      buildListGroups items ps s = buildListGroups items "year" s) := by
  refine ⟨fun s h1 h2 => normalizeListViewSortOrder_default h1 h2,
    fun s h1 h2 h3 h4 h5 h6 =>
      normalizeListViewGroupingPreset_default h1 h2 h3 h4 h5 h6,
    ?_, ?_, ?_⟩
  · intro p h1 h2
    obtain ⟨cands, idx, inc, so, parse, uid⟩ := p
    simp only [buildListItems]
    rw [normalizeListViewSortOrder_default h1 h2]
    rfl
  · intro items preset s h1 h2
    simp only [buildListGroups]
    rw [normalizeListViewSortOrder_default h1 h2]
    rfl
  · intro items ps s h1 h2 h3 h4 h5 h6
    simp only [buildListGroups]
    rw [normalizeListViewGroupingPreset_default h1 h2 h3 h4 h5 h6]
    rfl

/-- Witness for C10 at the concrete unrecognized input `"oldest"`. -/
theorem C10_witness :
    normalizeListViewSortOrder "oldest" = ListViewSortOrder.desc ∧
    normalizeListViewGroupingPreset "oldest" = ListViewGroupingPreset.year :=
  ⟨C10_normalizers_default.1 "oldest" (by decide) (by decide),
   C10_normalizers_default.2.1 "oldest" (by decide) (by decide) (by decide)
     (by decide) (by decide) (by decide)⟩

/-! Claim C3: the placeholder sentinel. -/

theorem mem_buildListItems {p : BuildListItemsParams} {item : ListItem} :
    item ∈ buildListItems p ↔
      ∃ d ∈ computeIncludedDates (dedupCandidatesByDate p.dailyNoteCandidates) p,
        emitItem p (dedupCandidatesByDate p.dailyNoteCandidates) d = some item := by
  unfold buildListItems sortListItems
  rw [List.Perm.mem_iff (List.mergeSort_perm _ _)]
  simp [List.mem_filterMap]

/-- C3: every item returned by `buildListItems` with
`dailyNoteExists = false` carries the empty-string `filePath` and zero
`mtime` sentinel. -/
theorem C3_placeholder_sentinel (p : BuildListItemsParams) (item : ListItem)
    (hmem : item ∈ buildListItems p)
    (hph : item.dailyNoteExists = false) :
    item.filePath = "" ∧ item.mtime = 0 := by
  rcases mem_buildListItems.mp hmem with ⟨d, _, hemit⟩
  unfold emitItem at hemit
  cases hcand : getKey? (dedupCandidatesByDate p.dailyNoteCandidates) d with
  | some c =>
    rw [hcand] at hemit
    simp only [Option.some.injEq] at hemit
    rw [← hemit] at hph
    simp at hph
  | none =>
    rw [hcand] at hemit
    by_cases hv : (p.parseDateStr d).valid = false
    · simp [hv] at hemit
    · rw [if_neg hv] at hemit
      simp only [Option.some.injEq] at hemit
      rw [← hemit]
      exact ⟨rfl, rfl⟩

/-! Concrete fixtures used by witnesses. -/

/-- Sample valid day (2025-12-14, a Sunday of ISO week 50 of 2025). -/
def sampleMoment : Moment :=
  { valid := true, epoch := 1765670400000, year := 2025, month0 := 11,
    quarter := 4, isoWeekYear := 2025, isoWeek := 50,
    monthName := "December" }

/-- Result of a failed date parse. -/
def invalidMoment : Moment :=
  { valid := false, epoch := 0, year := 0, month0 := 0, quarter := 0,
    isoWeekYear := 0, isoWeek := 0, monthName := "" }

/-- Sample date parser recognizing only `2025-12-14`. -/
def sampleParseDateStr (s : String) : Moment :=
  if s = "2025-12-14" then sampleMoment else invalidMoment

/-- Sample non-daily note created on 2025-12-14. -/
def sampleNote : TFile :=
  { path := "Notes/idea.md", extension := "md", ctime := 1765700000000 }

/-- Sample parameters: no daily-note candidates, one created-on-day bucket
holding one note. -/
def sampleParams : BuildListItemsParams :=
  { dailyNoteCandidates := []
    createdOnDayIndex :=
      some [("2025-12-14", { notes := [sampleNote], files := [] })]
    includeCreatedDays := true
    sortOrder := "desc"
    parseDateStr := sampleParseDateStr
    getDayDateUID := fun d => "day-" ++ toString d.year }

/-- The placeholder item `buildListItems sampleParams` produces. -/
def samplePlaceholderItem : ListItem :=
  { date := sampleMoment, dateUID := "day-2025", dateStr := "2025-12-14",
    epoch := 1765670400000, year := 2025, file := none, filePath := "",
    mtime := 0, dailyNoteExists := false, createdNotesCount := 1,
    createdFilesCount := 0 }

/-- Witness for C3: the concrete placeholder day produced from
`sampleParams`. -/
theorem C3_witness :
    samplePlaceholderItem.filePath = "" ∧ samplePlaceholderItem.mtime = 0 :=
  C3_placeholder_sentinel sampleParams samplePlaceholderItem
    (mem_buildListItems.mpr (by decide)) (by decide)

/-! Claim C2: by-date dedup keeps one candidate per date, the one with the
greatest mtime. -/

theorem keyVal_unique {β : Type} {r : List (String × β)}
    (hnd : (r.map Prod.fst).Nodup) {k : String} {a b : β}
    (ha : (k, a) ∈ r) (hb : (k, b) ∈ r) : a = b := by
  have h1 := getKey?_eq_some_of_mem hnd ha
  have h2 := getKey?_eq_some_of_mem hnd hb
  rw [h1] at h2
  exact Option.some.inj h2

theorem foldl_byDateStep_spec (cands : List DailyNoteCandidate)
    (m : List (String × DailyNoteCandidate))
    (hnd : (m.map Prod.fst).Nodup)
    (hkey : ∀ kv ∈ m, kv.2.dateStr = kv.1) :
    (((cands.foldl byDateStep m).map Prod.fst).Nodup) ∧
    (∀ kv ∈ cands.foldl byDateStep m, kv.2.dateStr = kv.1) ∧
    (∀ kv ∈ cands.foldl byDateStep m, kv.2 ∈ cands ∨ kv ∈ m) ∧
    (∀ kv ∈ cands.foldl byDateStep m, ∀ c' ∈ cands,
      c'.dateStr = kv.1 → c'.mtime ≤ kv.2.mtime) ∧
    (∀ kv ∈ m, ∃ v, (kv.1, v) ∈ cands.foldl byDateStep m ∧
      kv.2.mtime ≤ v.mtime) ∧
    (∀ c ∈ cands, ∃ v, (c.dateStr, v) ∈ cands.foldl byDateStep m) := by
  induction cands generalizing m with
  | nil =>
    refine ⟨hnd, hkey, fun kv h => Or.inr h, by simp, ?_, by simp⟩
    intro kv h
    exact ⟨kv.2, h, le_refl _⟩
  | cons c rest ih =>
    -- Facts about the one-step accumulator `byDateStep m c`.
    have step : ((byDateStep m c).map Prod.fst).Nodup ∧
        (∀ kv ∈ byDateStep m c, kv.2.dateStr = kv.1) ∧
        (∀ kv ∈ byDateStep m c, kv.2 = c ∨ kv ∈ m) ∧
        (∀ kv ∈ m, ∃ v, (kv.1, v) ∈ byDateStep m c ∧ kv.2.mtime ≤ v.mtime) ∧
        (∃ v, (c.dateStr, v) ∈ byDateStep m c ∧ c.mtime ≤ v.mtime) := by
      cases hget : getKey? m c.dateStr with
      | none =>
        have hnotin : c.dateStr ∉ m.map Prod.fst :=
          (getKey?_eq_none_iff m c.dateStr).mp hget
        have hb : byDateStep m c = m ++ [(c.dateStr, c)] := by
          unfold byDateStep
          rw [hget]
        rw [hb]
        refine ⟨?_, ?_, ?_, ?_, ?_⟩
        · rw [List.map_append]
          exact List.Nodup.append hnd (by simp)
            (fun a ha hb => hnotin ((List.mem_singleton.mp (by simpa using hb)) ▸ ha))
        · intro kv hkv
          rcases List.mem_append.mp hkv with h | h
          · exact hkey kv h
          · rw [List.mem_singleton.mp h]
        · intro kv hkv
          rcases List.mem_append.mp hkv with h | h
          · exact Or.inr h
          · exact Or.inl (congrArg Prod.snd (List.mem_singleton.mp h))
        · intro kv hkv
          exact ⟨kv.2, List.mem_append_left _ hkv, le_refl _⟩
        · exact ⟨c, List.mem_append_right _ (by simp), le_refl _⟩
      | some prev =>
        have hprevmem : (c.dateStr, prev) ∈ m := mem_of_getKey?_eq_some hget
        by_cases hlt : prev.mtime < c.mtime
        · have hin : c.dateStr ∈ m.map Prod.fst := by
            exact List.mem_map_of_mem Prod.fst hprevmem
          have hb : byDateStep m c = setKey m c.dateStr c := by
            unfold byDateStep
            rw [hget]
            simp [hlt]
          rw [hb]
          refine ⟨?_, ?_, ?_, ?_, ?_⟩
          · rw [setKey_map_fst_of_mem c hin]
            exact hnd
          · intro kv hkv
            rcases mem_of_mem_setKey hkv with h | h
            · exact hkey kv h
            · rw [h]
          · intro kv hkv
            rcases mem_of_mem_setKey hkv with h | h
            · exact Or.inr h
            · exact Or.inl (congrArg Prod.snd h)
          · intro kv hkv
            by_cases hk : kv.1 = c.dateStr
            · have hx : (kv.1, kv.2) ∈ m := hkv
              rw [hk] at hx
              have hkp : kv.2 = prev := keyVal_unique hnd hx hprevmem
              refine ⟨c, ?_, ?_⟩
              · rw [hk]
                exact mem_setKey_self m c.dateStr c
              · rw [hkp]
                exact le_of_lt hlt
            · exact ⟨kv.2, mem_setKey_of_ne hkv hk, le_refl _⟩
          · exact ⟨c, mem_setKey_self m c.dateStr c, le_refl _⟩
        · have hb : byDateStep m c = m := by
            unfold byDateStep
            rw [hget]
            simp [hlt]
          rw [hb]
          exact ⟨hnd, hkey, fun kv h => Or.inr h,
            fun kv h => ⟨kv.2, h, le_refl _⟩,
            ⟨prev, hprevmem, le_of_not_lt hlt⟩⟩
      -- end step
    obtain ⟨snd, skey, smem, smono, sself⟩ := step
    have hfold : (c :: rest).foldl byDateStep m
        = rest.foldl byDateStep (byDateStep m c) := rfl
    obtain ⟨rnd, rkey, rmem, rmax, rmono, rall⟩ := ih (byDateStep m c) snd skey
    rw [hfold]
    refine ⟨rnd, rkey, ?_, ?_, ?_, ?_⟩
    · intro kv hkv
      rcases rmem kv hkv with h | h
      · exact Or.inl (List.mem_cons_of_mem _ h)
      · rcases smem kv h with h1 | h1
        · exact Or.inl (h1 ▸ List.mem_cons_self _ _)
        · exact Or.inr h1
    · intro kv hkv c' hc' hdk
      rcases List.mem_cons.mp hc' with h | h
      · subst h
        obtain ⟨v, hvmem, hvle⟩ := sself
        obtain ⟨w, hwmem, hwle⟩ := rmono (c'.dateStr, v) hvmem
        have hx : (kv.1, kv.2) ∈ rest.foldl byDateStep (byDateStep m c') := hkv
        rw [← hdk] at hx
        have hkvw : kv.2 = w := keyVal_unique rnd hx hwmem
        rw [hkvw]
        exact le_trans hvle hwle
      · exact rmax kv hkv c' h hdk
    · intro kv hkv
      obtain ⟨v, hvmem, hvle⟩ := smono kv hkv
      obtain ⟨w, hwmem, hwle⟩ := rmono (kv.1, v) hvmem
      exact ⟨w, hwmem, le_trans hvle hwle⟩
    · intro c' hc'
      rcases List.mem_cons.mp hc' with h | h
      · subst h
        obtain ⟨v, hvmem, _⟩ := sself
        obtain ⟨w, hwmem, _⟩ := rmono (c'.dateStr, v) hvmem
        exact ⟨w, hwmem⟩
      · exact rall c' h

theorem dedup_keys_nodup (cands : List DailyNoteCandidate) :
    ((dedupCandidatesByDate cands).map Prod.fst).Nodup :=
  (foldl_byDateStep_spec cands [] (by simp) (by simp)).1

theorem dedup_key_eq (cands : List DailyNoteCandidate) :
    ∀ kv ∈ dedupCandidatesByDate cands, kv.2.dateStr = kv.1 :=
  (foldl_byDateStep_spec cands [] (by simp) (by simp)).2.1

theorem dedup_mem (cands : List DailyNoteCandidate) :
    ∀ kv ∈ dedupCandidatesByDate cands, kv.2 ∈ cands := by
  intro kv h
  rcases (foldl_byDateStep_spec cands [] (by simp) (by simp)).2.2.1 kv h with
    h1 | h1
  · exact h1
  · simp at h1

theorem dedup_max (cands : List DailyNoteCandidate) :
    ∀ kv ∈ dedupCandidatesByDate cands, ∀ c' ∈ cands,
      c'.dateStr = kv.1 → c'.mtime ≤ kv.2.mtime :=
  (foldl_byDateStep_spec cands [] (by simp) (by simp)).2.2.2.1

theorem dedup_surj (cands : List DailyNoteCandidate) :
    ∀ c ∈ cands, ∃ v, (c.dateStr, v) ∈ dedupCandidatesByDate cands :=
  (foldl_byDateStep_spec cands [] (by simp) (by simp)).2.2.2.2.2

/-- C2: the by-date dedup of `buildListItems` retains exactly one candidate
per `dateStr`, and it is one with the greatest `mtime` among the candidates
sharing that `dateStr`; every daily-note-backed output item carries the
file path and mtime of its deduplicated candidate. -/
theorem C2_dedup_retains_max_mtime :
    (∀ (cands : List DailyNoteCandidate) (d : String),
      (∀ c, (d, c) ∈ dedupCandidatesByDate cands →
        c ∈ cands ∧ c.dateStr = d ∧
        ∀ c' ∈ cands, c'.dateStr = d → c'.mtime ≤ c.mtime) ∧
      ((∃ c ∈ cands, c.dateStr = d) →
        ∃! v, (d, v) ∈ dedupCandidatesByDate cands)) ∧
    (∀ (p : BuildListItemsParams) (item : ListItem),
      item ∈ buildListItems p → item.dailyNoteExists = true →
      ∃ c, (item.dateStr, c) ∈ dedupCandidatesByDate p.dailyNoteCandidates ∧
        item.filePath = c.filePath ∧ item.mtime = c.mtime) := by
  constructor
  · intro cands d
    constructor
    · intro c hc
      have hkey := dedup_key_eq cands (d, c) hc
      refine ⟨dedup_mem cands (d, c) hc, hkey, ?_⟩
      intro c' hc' hd
      exact dedup_max cands (d, c) hc c' hc' (by rw [hd])
    · intro ⟨c, hc, hd⟩
      obtain ⟨v, hv⟩ := dedup_surj cands c hc
      rw [hd] at hv
      refine ⟨v, hv, ?_⟩
      intro w hw
      exact keyVal_unique (dedup_keys_nodup cands) hw hv
  · intro p item hmem hdn
    rcases mem_buildListItems.mp hmem with ⟨d, _, hemit⟩
    unfold emitItem at hemit
    cases hcand : getKey? (dedupCandidatesByDate p.dailyNoteCandidates) d with
    | some c =>
      rw [hcand] at hemit
      simp only [Option.some.injEq] at hemit
      have hcmem : (d, c) ∈ dedupCandidatesByDate p.dailyNoteCandidates :=
        mem_of_getKey?_eq_some hcand
      refine ⟨c, ?_, ?_, ?_⟩
      · have : item.dateStr = c.dateStr := by rw [← hemit]
        rw [this, dedup_key_eq p.dailyNoteCandidates (d, c) hcmem]
        exact hcmem
      · rw [← hemit]
      · rw [← hemit]
    | none =>
      rw [hcand] at hemit
      by_cases hv : (p.parseDateStr d).valid = false
      · simp [hv] at hemit
      · rw [if_neg hv] at hemit
        simp only [Option.some.injEq] at hemit
        rw [← hemit] at hdn
        simp at hdn

/-- Sample duplicate daily-note candidates for the same day, the second
more recently modified. -/
def sampleCandOld : DailyNoteCandidate :=
  { date := sampleMoment, dateUID := "day-2025-12-14",
    dateStr := "2025-12-14", epoch := 1765670400000, year := 2025,
    file := { path := "Daily/2025-12-14 copy.md", extension := "md",
              ctime := 1765670000000 },
    filePath := "Daily/2025-12-14 copy.md", mtime := 100, qualifies := true }

def sampleCandNew : DailyNoteCandidate :=
  { date := sampleMoment, dateUID := "day-2025-12-14",
    dateStr := "2025-12-14", epoch := 1765670400000, year := 2025,
    file := { path := "Daily/2025-12-14.md", extension := "md",
              ctime := 1765670000000 },
    filePath := "Daily/2025-12-14.md", mtime := 200, qualifies := true }

/-- Witness for C2: of two candidates sharing `2025-12-14`, the one kept is
in the input, is for that day, and has the maximal mtime. -/
theorem C2_witness :
    sampleCandNew ∈ [sampleCandOld, sampleCandNew] ∧
    sampleCandNew.dateStr = "2025-12-14" ∧
    (∀ c' ∈ [sampleCandOld, sampleCandNew], c'.dateStr = "2025-12-14" →
      c'.mtime ≤ sampleCandNew.mtime) :=
  (C2_dedup_retains_max_mtime.1 [sampleCandOld, sampleCandNew]
    "2025-12-14").1 sampleCandNew (by decide)

/-! Claim C1: the day-inclusion predicate of `buildListItems`. -/

theorem mem_foldl_pushUnique {α : Type} (p : α → Prop) [DecidablePred p]
    (f : α → String) (l : List α) (init : List String) (d : String) :
    d ∈ l.foldl (fun acc x => if p x then pushUnique acc (f x) else acc) init ↔
      d ∈ init ∨ ∃ x ∈ l, p x ∧ f x = d := by
  induction l generalizing init with
  | nil => simp
  | cons x xs ih =>
    simp only [List.foldl_cons]
    rw [ih]
    by_cases hp : p x
    · simp only [if_pos hp, mem_pushUnique]
      constructor
      · rintro ((h | h) | ⟨y, hy, hpy, hfy⟩)
        · exact Or.inl h
        · exact Or.inr ⟨x, List.mem_cons_self _ _, hp, h.symm⟩
        · exact Or.inr ⟨y, List.mem_cons_of_mem _ hy, hpy, hfy⟩
      · rintro (h | ⟨y, hy, hpy, hfy⟩)
        · exact Or.inl (Or.inl h)
        · rcases List.mem_cons.mp hy with h1 | h1
          · subst h1
            exact Or.inl (Or.inr hfy.symm)
          · exact Or.inr ⟨y, h1, hpy, hfy⟩
    · simp only [if_neg hp]
      constructor
      · rintro (h | ⟨y, hy, hpy, hfy⟩)
        · exact Or.inl h
        · exact Or.inr ⟨y, List.mem_cons_of_mem _ hy, hpy, hfy⟩
      · rintro (h | ⟨y, hy, hpy, hfy⟩)
        · exact Or.inl h
        · rcases List.mem_cons.mp hy with h1 | h1
          · subst h1
            exact absurd hpy hp
          · exact Or.inr ⟨y, h1, hpy, hfy⟩

theorem mem_qualifyFold (byDate : List (String × DailyNoteCandidate))
    (init : List String) (d : String) :
    d ∈ byDate.foldl
        (fun acc kv => if kv.2.qualifies then pushUnique acc kv.2.dateStr else acc)
        init ↔
      d ∈ init ∨ ∃ kv ∈ byDate, kv.2.qualifies = true ∧ kv.2.dateStr = d :=
  mem_foldl_pushUnique
    (fun kv : String × DailyNoteCandidate => kv.2.qualifies = true)
    (fun kv => kv.2.dateStr) byDate init d

theorem mem_bucketFold (idx : List (String × CreatedOnDayBucket))
    (init : List String) (d : String) :
    d ∈ idx.foldl
        (fun acc kv =>
          if 0 < kv.2.notes.length ∨ 0 < kv.2.files.length then
            pushUnique acc kv.1
          else acc)
        init ↔
      d ∈ init ∨ ∃ kv ∈ idx,
        (0 < kv.2.notes.length ∨ 0 < kv.2.files.length) ∧ kv.1 = d :=
  mem_foldl_pushUnique
    (fun kv : String × CreatedOnDayBucket =>
      0 < kv.2.notes.length ∨ 0 < kv.2.files.length)
    (fun kv => kv.1) idx init d

theorem mem_computeIncludedDates
    {byDate : List (String × DailyNoteCandidate)} {p : BuildListItemsParams}
    {d : String} :
    d ∈ computeIncludedDates byDate p ↔
      (∃ kv ∈ byDate, kv.2.qualifies = true ∧ kv.2.dateStr = d) ∨
      (p.includeCreatedDays = true ∧ ∃ idx, p.createdOnDayIndex = some idx ∧
        ∃ kv ∈ idx, (0 < kv.2.notes.length ∨ 0 < kv.2.files.length) ∧
          kv.1 = d) := by
  unfold computeIncludedDates
  by_cases hinc : p.includeCreatedDays = true
  · rw [if_pos hinc]
    cases hidx : p.createdOnDayIndex with
    | none =>
      simp only [mem_qualifyFold]
      simp [hidx]
    | some idx =>
      simp only [mem_bucketFold, mem_qualifyFold]
      simp [hidx, hinc]
  · rw [if_neg hinc]
    simp only [mem_qualifyFold]
    simp [hinc]

theorem emitItem_candidate {p : BuildListItemsParams}
    {byDate : List (String × DailyNoteCandidate)} {d : String}
    {c : DailyNoteCandidate} (hcand : getKey? byDate d = some c) :
    emitItem p byDate d = some
      { date := c.date, dateUID := c.dateUID, dateStr := c.dateStr,
        epoch := c.epoch, year := c.year, file := some c.file,
        filePath := c.filePath, mtime := c.mtime, dailyNoteExists := true,
        createdNotesCount :=
          countCreatedNotesExcluding (getBucket p c.dateStr) c.filePath,
        createdFilesCount := countCreatedFiles (getBucket p c.dateStr) } := by
  unfold emitItem
  rw [hcand]

theorem emitItem_placeholder {p : BuildListItemsParams}
    {byDate : List (String × DailyNoteCandidate)} {d : String}
    (hcand : getKey? byDate d = none)
    (hv : (p.parseDateStr d).valid = true) :
    emitItem p byDate d = some
      { date := p.parseDateStr d,
        dateUID := p.getDayDateUID (p.parseDateStr d), dateStr := d,
        epoch := (p.parseDateStr d).epoch, year := (p.parseDateStr d).year,
        file := none, filePath := "", mtime := 0, dailyNoteExists := false,
        createdNotesCount := countCreatedNotesExcluding (getBucket p d) "",
        createdFilesCount := countCreatedFiles (getBucket p d) } := by
  unfold emitItem
  rw [hcand]
  simp [hv]

theorem emitItem_dateStr {p : BuildListItemsParams}
    {byDate : List (String × DailyNoteCandidate)} {d : String}
    {item : ListItem} (hkey : ∀ kv ∈ byDate, kv.2.dateStr = kv.1)
    (h : emitItem p byDate d = some item) : item.dateStr = d := by
  cases hcand : getKey? byDate d with
  | some c =>
    rw [emitItem_candidate hcand] at h
    simp only [Option.some.injEq] at h
    have hds : item.dateStr = c.dateStr := by rw [← h]
    rw [hds]
    exact hkey (d, c) (mem_of_getKey?_eq_some hcand)
  | none =>
    by_cases hv : (p.parseDateStr d).valid = true
    · rw [emitItem_placeholder hcand hv] at h
      simp only [Option.some.injEq] at h
      rw [← h]
    · unfold emitItem at h
      rw [hcand] at h
      simp [Bool.not_eq_true] at hv
      simp [hv] at h

/-- C1: a calendar day has an item in `buildListItems` iff its
deduplicated daily-note candidate qualifies, or `includeCreatedDays` is on
and the created-day index holds a bucket for that day with at least one
raw entry (counted before the daily-note exclusion); a day satisfying
neither is absent and gets no placeholder.  The hypotheses say the index
date keys parse into valid days. -/
theorem C1_day_inclusion (p : BuildListItemsParams)
    (hvalid : ∀ kv ∈ p.createdOnDayIndex.getD [],
      (p.parseDateStr kv.1).valid = true)
    (d : String) :
    (∃ item ∈ buildListItems p, item.dateStr = d) ↔
      ((∃ c, (d, c) ∈ dedupCandidatesByDate p.dailyNoteCandidates ∧
          c.qualifies = true) ∨
        (p.includeCreatedDays = true ∧
          ∃ idx b, p.createdOnDayIndex = some idx ∧ (d, b) ∈ idx ∧
            0 < b.notes.length + b.files.length)) := by
  constructor
  · rintro ⟨item, hmem, hds⟩
    rcases mem_buildListItems.mp hmem with ⟨d', hd', hemit⟩
    have hdd : d' = d := by
      rw [← emitItem_dateStr (dedup_key_eq p.dailyNoteCandidates) hemit, hds]
    subst hdd
    rcases mem_computeIncludedDates.mp hd' with ⟨kv, hkv, hq, hdk⟩ | hcr
    · refine Or.inl ⟨kv.2, ?_, hq⟩
      have hk1 : kv.1 = d' := by
        rw [← dedup_key_eq p.dailyNoteCandidates kv hkv, hdk]
      have hx : (kv.1, kv.2) ∈ dedupCandidatesByDate p.dailyNoteCandidates :=
        hkv
      rw [hk1] at hx
      exact hx
    · obtain ⟨hinc, idx, hidx, kv, hkv, hcnt, hk1⟩ := hcr
      refine Or.inr ⟨hinc, idx, kv.2, hidx, ?_, by omega⟩
      have hx : (kv.1, kv.2) ∈ idx := hkv
      rw [hk1] at hx
      exact hx
  · intro h
    have hincl : d ∈ computeIncludedDates
        (dedupCandidatesByDate p.dailyNoteCandidates) p := by
      rcases h with ⟨c, hc, hq⟩ | ⟨hinc, idx, b, hidx, hb, hcnt⟩
      · refine mem_computeIncludedDates.mpr (Or.inl ⟨(d, c), hc, hq, ?_⟩)
        exact dedup_key_eq p.dailyNoteCandidates (d, c) hc
      · have hor : 0 < b.notes.length ∨ 0 < b.files.length := by
          by_cases h0 : 0 < b.notes.length
          · exact Or.inl h0
          · right
            omega
        exact mem_computeIncludedDates.mpr
          (Or.inr ⟨hinc, idx, hidx, (d, b), hb, hor, rfl⟩)
    have hemit : ∃ item, emitItem p
        (dedupCandidatesByDate p.dailyNoteCandidates) d = some item := by
      cases hcand : getKey? (dedupCandidatesByDate p.dailyNoteCandidates) d with
      | some c => exact ⟨_, emitItem_candidate hcand⟩
      | none =>
        rcases h with ⟨c, hc, _⟩ | ⟨_, idx, b, hidx, hb, _⟩
        · have := getKey?_eq_some_of_mem
            (dedup_keys_nodup p.dailyNoteCandidates) hc
          rw [hcand] at this
          exact Option.noConfusion this
        · have hv : (p.parseDateStr d).valid = true := by
            apply hvalid (d, b)
            rw [hidx]
            exact hb
          exact ⟨_, emitItem_placeholder hcand hv⟩
    obtain ⟨item, hitem⟩ := hemit
    refine ⟨item, mem_buildListItems.mpr ⟨d, hincl, hitem⟩, ?_⟩
    exact emitItem_dateStr (dedup_key_eq p.dailyNoteCandidates) hitem

/-- Witness for C1: under `sampleParams` the day `2025-12-14` (created
items only, no daily note) is included. -/
theorem C1_witness :
    ∃ item ∈ buildListItems sampleParams, item.dateStr = "2025-12-14" :=
  (C1_day_inclusion sampleParams (by decide) "2025-12-14").mpr
    (Or.inr ⟨rfl,
      [("2025-12-14", { notes := [sampleNote], files := [] })],
      { notes := [sampleNote], files := [] }, rfl, by decide, by decide⟩)

/-! Claim C4: the daily note's own file never contributes to its day's
created-notes count or rendered list. -/

/-- Notes array of an optional bucket (`bucket?.notes ?? []`). -/
def optBucketNotes (bucket : Option CreatedOnDayBucket) : List TFile :=
  match bucket with
  | none => []
  | some b => b.notes

/-- Notes array of the day's bucket as `buildListItems` resolves it. -/
def bucketNotesFor (p : BuildListItemsParams) (d : String) : List TFile :=
  optBucketNotes (getBucket p d)

theorem countCreatedNotesExcluding_eq (bucket : Option CreatedOnDayBucket)
    (ep : String) (hep : ep ≠ "") :
    countCreatedNotesExcluding bucket ep =
      (optBucketNotes bucket).length -
        (if (optBucketNotes bucket).any (fun f => f.path == ep) then 1
          else 0) := by
  unfold countCreatedNotesExcluding optBucketNotes
  cases bucket with
  | none => simp
  | some b =>
    by_cases h0 : b.notes.length = 0
    · simp [h0, List.length_eq_zero.mp h0]
    · simp only [if_neg h0, if_neg hep]
      by_cases ha : b.notes.any (fun f => f.path == ep)
      · simp [ha]
      · simp [ha]

/-- C4: a day row emitted from a daily-note candidate has
`createdNotesCount` equal to the day's raw notes count minus one exactly
when some bucket note carries the daily note's path (truncated at zero),
and the rendered created-notes list never contains the item's own path.
The first hypothesis says candidates carry real (non-empty) file paths. -/
theorem C4_own_file_excluded :
    (∀ p : BuildListItemsParams,
      (∀ c ∈ p.dailyNoteCandidates, c.filePath ≠ "") →
      ∀ item ∈ buildListItems p, item.dailyNoteExists = true →
      item.createdNotesCount =
        (bucketNotesFor p item.dateStr).length -
          (if (bucketNotesFor p item.dateStr).any
              (fun f => f.path == item.filePath) then 1 else 0)) ∧
    (∀ (flag : Bool) (idx : List (String × CreatedOnDayBucket))
        (item : ListItem),
      item.filePath ∉ (getCreatedNotesForItem flag idx item).map TFile.path) := by
  constructor
  · intro p hpaths item hmem hdn
    rcases mem_buildListItems.mp hmem with ⟨d, _, hemit⟩
    cases hcand : getKey? (dedupCandidatesByDate p.dailyNoteCandidates) d with
    | some c =>
      rw [emitItem_candidate hcand] at hemit
      simp only [Option.some.injEq] at hemit
      have hcmem : c ∈ p.dailyNoteCandidates :=
        dedup_mem p.dailyNoteCandidates (d, c) (mem_of_getKey?_eq_some hcand)
      have hcp : c.filePath ≠ "" := hpaths c hcmem
      rw [← hemit]
      simp only []
      unfold bucketNotesFor
      exact countCreatedNotesExcluding_eq (getBucket p c.dateStr) c.filePath hcp
    | none =>
      by_cases hv : (p.parseDateStr d).valid = true
      · rw [emitItem_placeholder hcand hv] at hemit
        simp only [Option.some.injEq] at hemit
        rw [← hemit] at hdn
        simp at hdn
      · unfold emitItem at hemit
        rw [hcand] at hemit
        simp [Bool.not_eq_true] at hv
        simp [hv] at hemit
  · intro flag idx item hmem
    rcases List.mem_map.mp hmem with ⟨f, hf, hfp⟩
    unfold getCreatedNotesForItem at hf
    by_cases hflag : flag = false
    · simp [hflag] at hf
    · rw [if_neg hflag] at hf
      cases hb : getKey? idx item.dateStr with
      | none =>
        rw [hb] at hf
        simp at hf
      | some bucket =>
        simp only [hb] at hf
        by_cases h0 : bucket.notes.length = 0
        · simp [h0] at hf
        · rw [if_neg h0] at hf
          have := List.of_mem_filter hf
          simp only [bne_iff_ne, ne_eq] at this
          exact this hfp

/-- Sample daily-note day 2025-12-15 whose bucket also indexes the daily
note's own file. -/
def sampleMoment15 : Moment :=
  { valid := true, epoch := 1765756800000, year := 2025, month0 := 11,
    quarter := 4, isoWeekYear := 2025, isoWeek := 51,
    monthName := "December" }

def sampleDailyFile15 : TFile :=
  { path := "Daily/2025-12-15.md", extension := "md",
    ctime := 1765760000000 }

def sampleCand15 : DailyNoteCandidate :=
  { date := sampleMoment15, dateUID := "day-2025-12-15",
    dateStr := "2025-12-15", epoch := 1765756800000, year := 2025,
    file := sampleDailyFile15, filePath := "Daily/2025-12-15.md",
    mtime := 1765761000000, qualifies := true }

def sampleBucket15 : CreatedOnDayBucket :=
  { notes := [sampleDailyFile15, sampleNote], files := [] }

def sampleParamsC4 : BuildListItemsParams :=
  { dailyNoteCandidates := [sampleCand15]
    createdOnDayIndex := some [("2025-12-15", sampleBucket15)]
    includeCreatedDays := true
    sortOrder := "asc"
    parseDateStr := sampleParseDateStr
    getDayDateUID := fun d => "day-" ++ toString d.year }

/-- The day row `buildListItems sampleParamsC4` emits: the bucket has two
notes, one being the daily note itself, so the count is 1. -/
def sampleDailyItem : ListItem :=
  { date := sampleMoment15, dateUID := "day-2025-12-15",
    dateStr := "2025-12-15", epoch := 1765756800000, year := 2025,
    file := some sampleDailyFile15, filePath := "Daily/2025-12-15.md",
    mtime := 1765761000000, dailyNoteExists := true,
    createdNotesCount := 1, createdFilesCount := 0 }

/-- Witness for C4 at the concrete day above. -/
theorem C4_witness :
    (sampleDailyItem.createdNotesCount =
      (bucketNotesFor sampleParamsC4 sampleDailyItem.dateStr).length -
        (if (bucketNotesFor sampleParamsC4 sampleDailyItem.dateStr).any
            (fun f => f.path == sampleDailyItem.filePath) then 1 else 0)) ∧
    sampleDailyItem.filePath ∉
      (getCreatedNotesForItem true [("2025-12-15", sampleBucket15)]
        sampleDailyItem).map TFile.path :=
  ⟨C4_own_file_excluded.1 sampleParamsC4 (by decide) sampleDailyItem
      (mem_buildListItems.mpr (by decide)) (by decide),
    C4_own_file_excluded.2 true [("2025-12-15", sampleBucket15)]
      sampleDailyItem⟩

/-! Claim C6: group id paths are built only from locale-independent
numeric components. -/

theorem idPathFold_only_idParts (segs : List GroupSegment)
    (acc : List String × List String) :
    segs.foldl
        (fun acc seg =>
          (acc.1 ++ [String.intercalate "/" (acc.2 ++ [seg.idPart])],
            acc.2 ++ [seg.idPart])) acc =
      (segs.map GroupSegment.idPart).foldl
        (fun acc ip =>
          (acc.1 ++ [String.intercalate "/" (acc.2 ++ [ip])],
            acc.2 ++ [ip])) acc := by
  induction segs generalizing acc with
  | nil => simp
  | cons s rest ih => simp [ih]

theorem segments_idParts_locale_free {d1 d2 : Moment}
    (hy : d1.year = d2.year) (hm : d1.month0 = d2.month0)
    (hq : d1.quarter = d2.quarter) (hwy : d1.isoWeekYear = d2.isoWeekYear)
    (hw : d1.isoWeek = d2.isoWeek) (pr : ListViewGroupingPreset) :
    (getSegmentsForDate d1 pr).map GroupSegment.idPart =
      (getSegmentsForDate d2 pr).map GroupSegment.idPart := by
  cases pr <;> simp [getSegmentsForDate, hy, hm, hq, hwy, hw]

/-- C6: for every date and preset the group id path depends only on the
numeric date components — year, zero-padded month number (for all three
month presets), quarter, ISO week-year and ISO week — never on the
locale-formatted month name, so two moments agreeing on those numerics
(but rendered under different locales) give identical id paths; the
month-name presets carry the same ids as the numeric month preset; and on
2025-12-15 preset `year_quarter` yields ids `["2025", "2025/Q4"]` with
segment labels `["2025", "Q4"]`. -/
theorem C6_group_ids_locale_independent :
    (∀ d1 d2 : Moment, d1.year = d2.year → d1.month0 = d2.month0 →
      d1.quarter = d2.quarter → d1.isoWeekYear = d2.isoWeekYear →
      d1.isoWeek = d2.isoWeek → ∀ preset : String,
      getListGroupIdPathForDate d1 preset =
        getListGroupIdPathForDate d2 preset) ∧
    (∀ d : Moment,
      (getSegmentsForDate d ListViewGroupingPreset.year_month_name).map
          GroupSegment.idPart =
        (getSegmentsForDate d ListViewGroupingPreset.year_month).map
          GroupSegment.idPart ∧
      (getSegmentsForDate d ListViewGroupingPreset.year_month_num_name).map
          GroupSegment.idPart =
        (getSegmentsForDate d ListViewGroupingPreset.year_month).map
          GroupSegment.idPart) ∧
    (getListGroupIdPathForDate sampleMoment15 "year_quarter" =
        ["2025", "2025/Q4"] ∧
      (getSegmentsForDate sampleMoment15
          ListViewGroupingPreset.year_quarter).map GroupSegment.label =
        ["2025", "Q4"]) := by
  refine ⟨?_, ?_, by decide, by decide⟩
  · intro d1 d2 hy hm hq hwy hw preset
    unfold getListGroupIdPathForDate
    dsimp only
    rw [idPathFold_only_idParts, idPathFold_only_idParts,
      segments_idParts_locale_free hy hm hq hwy hw]
  · intro d
    constructor <;> simp [getSegmentsForDate]

/-- The same day rendered under a Lithuanian locale: only `monthName`
differs. -/
def sampleMoment15lt : Moment :=
  { sampleMoment15 with monthName := "gruodis" }

/-- Witness for C6: the id path of 2025-12-15 under the month-name preset
is the same in the English and Lithuanian locales. -/
theorem C6_witness :
    getListGroupIdPathForDate sampleMoment15 "year_month_name" =
      getListGroupIdPathForDate sampleMoment15lt "year_month_name" :=
  C6_group_ids_locale_independent.1 sampleMoment15 sampleMoment15lt rfl rfl
    rfl rfl rfl "year_month_name"

/-! Claim C5: sort laws. -/

/-- The ordering relation a sort order denotes on epochs (JS comparator
`≤ 0`). -/
def ordRel (ord : ListViewSortOrder) : Int → Int → Prop :=
  match ord with
  | ListViewSortOrder.asc => fun a b => a ≤ b
  | ListViewSortOrder.desc => fun a b => b ≤ a

theorem listItemLe_eq_true_iff (ord : ListViewSortOrder) (a b : ListItem) :
    listItemLe ord a b = true ↔ ordRel ord a.epoch b.epoch := by
  cases ord <;> simp [listItemLe, ordRel]

theorem groupLeFinal_eq_true_iff (ord : ListViewSortOrder)
    (a b : ListGroupNode) :
    groupLeFinal ord a b = true ↔
      ordRel ord (a.maxEpoch.getD 0) (b.maxEpoch.getD 0) := by
  cases ord <;> simp [groupLeFinal, ordRel]

theorem listItemLe_trans (ord : ListViewSortOrder) :
    ∀ a b c : ListItem, listItemLe ord a b = true →
      listItemLe ord b c = true → listItemLe ord a c = true := by
  cases ord <;>
    (intro a b c h1 h2
     simp only [listItemLe, decide_eq_true_eq] at *
     omega)

theorem listItemLe_total (ord : ListViewSortOrder) :
    ∀ a b : ListItem, (listItemLe ord a b || listItemLe ord b a) = true := by
  cases ord <;>
    (intro a b
     simp only [listItemLe, Bool.or_eq_true, decide_eq_true_eq]
     omega)

theorem groupLeFinal_trans (ord : ListViewSortOrder) :
    ∀ a b c : ListGroupNode, groupLeFinal ord a b = true →
      groupLeFinal ord b c = true → groupLeFinal ord a c = true := by
  cases ord <;>
    (intro a b c h1 h2
     simp only [groupLeFinal, decide_eq_true_eq] at *
     omega)

theorem groupLeFinal_total (ord : ListViewSortOrder) :
    ∀ a b : ListGroupNode,
      (groupLeFinal ord a b || groupLeFinal ord b a) = true := by
  cases ord <;>
    (intro a b
     simp only [groupLeFinal, Bool.or_eq_true, decide_eq_true_eq]
     omega)

theorem buildListItems_pairwise (p : BuildListItemsParams) :
    List.Pairwise
      (fun a b =>
        listItemLe (normalizeListViewSortOrder p.sortOrder) a b = true)
      (buildListItems p) := by
  unfold buildListItems sortListItems
  exact List.sorted_mergeSort
    (listItemLe_trans (normalizeListViewSortOrder p.sortOrder))
    (listItemLe_total (normalizeListViewSortOrder p.sortOrder)) _

mutual

/-- Ordering invariant of one finalized node: its child groups are pairwise
ordered by `maxEpoch ?? 0`, its leaf items pairwise ordered by epoch, and
all descendants likewise. -/
def nodeOrdered (le : Int → Int → Prop) : ListGroupNode → Prop
  | ListGroupNode.mk _ _ groups items _ _ =>
    List.Pairwise
      (fun a b : ListGroupNode => le (a.maxEpoch.getD 0) (b.maxEpoch.getD 0))
      groups ∧
    List.Pairwise (fun a b : ListItem => le a.epoch b.epoch) items ∧
    forestOrdered le groups

/-- Ordering invariant of every node of a forest. -/
def forestOrdered (le : Int → Int → Prop) : List ListGroupNode → Prop
  | [] => True
  | n :: rest => nodeOrdered le n ∧ forestOrdered le rest

end

/-- Ordering invariant of a group forest: the top-level siblings are
pairwise ordered by `maxEpoch ?? 0` and every node satisfies
`nodeOrdered`. -/
def groupsOrdered (le : Int → Int → Prop) (ns : List ListGroupNode) : Prop :=
  List.Pairwise
    (fun a b : ListGroupNode => le (a.maxEpoch.getD 0) (b.maxEpoch.getD 0))
    ns ∧
  forestOrdered le ns

theorem forestOrdered_iff (le : Int → Int → Prop)
    (ns : List ListGroupNode) :
    forestOrdered le ns ↔ ∀ n ∈ ns, nodeOrdered le n := by
  induction ns with
  | nil => simp [forestOrdered]
  | cons n rest ih =>
    simp [forestOrdered, ih]

mutual

theorem finalize_ordered (ord : ListViewSortOrder) (n : GNodeInternal) :
    nodeOrdered (ordRel ord) (finalize ord n) := by
  cases n with
  | mk id label children items maxE =>
    rw [finalize]
    simp only [nodeOrdered]
    refine ⟨?_, ?_, ?_⟩
    · exact (List.sorted_mergeSort (groupLeFinal_trans ord)
        (groupLeFinal_total ord) (finalizeChildren ord children)).imp
        (fun hab => (groupLeFinal_eq_true_iff ord _ _).mp hab)
    · by_cases hg :
        ((finalizeChildren ord children).mergeSort (groupLeFinal ord)).isEmpty
      · rw [if_pos hg]
        exact (List.sorted_mergeSort (listItemLe_trans ord)
          (listItemLe_total ord) items).imp
          (fun hab => (listItemLe_eq_true_iff ord _ _).mp hab)
      · rw [if_neg hg]
        exact List.Pairwise.nil
    · rw [forestOrdered_iff]
      intro g hg
      have hmem : g ∈ finalizeChildren ord children :=
        List.mem_mergeSort.mp hg
      exact finalizeChildren_ordered ord children g hmem

theorem finalizeChildren_ordered (ord : ListViewSortOrder)
    (l : List (String × GNodeInternal)) :
    ∀ g ∈ finalizeChildren ord l, nodeOrdered (ordRel ord) g := by
  cases l with
  | nil =>
    intro g hg
    rw [finalizeChildren] at hg
    exact absurd hg (List.not_mem_nil g)
  | cons kv rest =>
    intro g hg
    rw [finalizeChildren] at hg
    rcases List.mem_cons.mp hg with h | h
    · rw [h]
      exact finalize_ordered ord kv.2
    · exact finalizeChildren_ordered ord rest g h

end

theorem buildListGroups_ordered (items : List ListItem) (preset : String)
    (sortOrder : String) :
    groupsOrdered (ordRel (normalizeListViewSortOrder sortOrder))
      (buildListGroups items preset sortOrder) := by
  unfold buildListGroups
  dsimp only
  constructor
  · exact (List.sorted_mergeSort
      (groupLeFinal_trans (normalizeListViewSortOrder sortOrder))
      (groupLeFinal_total (normalizeListViewSortOrder sortOrder)) _).imp
      (fun hab => (groupLeFinal_eq_true_iff _ _ _).mp hab)
  · rw [forestOrdered_iff]
    intro g hg
    exact finalizeChildren_ordered _ _ g (List.mem_mergeSort.mp hg)

/-- C5: under `"asc"` the item list is non-decreasing in epoch and every
level of the group tree (sibling groups by `maxEpoch ?? 0`, leaf items by
epoch) is non-decreasing; under `"desc"` all are non-increasing; and
re-applying the same sort to the already-sorted output of
`buildListItems` leaves it unchanged. -/
theorem C5_sort_laws :
    (∀ p : BuildListItemsParams,
      List.Pairwise (fun a b : ListItem => a.epoch ≤ b.epoch)
        (buildListItems { p with sortOrder := "asc" }) ∧
      List.Pairwise (fun a b : ListItem => b.epoch ≤ a.epoch)
        (buildListItems { p with sortOrder := "desc" })) ∧
    (∀ (items : List ListItem) (preset : String),
      groupsOrdered (fun a b => a ≤ b)
        (buildListGroups items preset "asc") ∧
      groupsOrdered (fun a b => b ≤ a)
        (buildListGroups items preset "desc")) ∧
    (∀ p : BuildListItemsParams,
      sortListItems (normalizeListViewSortOrder p.sortOrder)
        (buildListItems p) = buildListItems p) := by
  have easc : normalizeListViewSortOrder "asc" = ListViewSortOrder.asc := by
    decide
  have edesc : normalizeListViewSortOrder "desc" = ListViewSortOrder.desc := by
    decide
  refine ⟨?_, ?_, ?_⟩
  · intro p
    constructor
    · have h := buildListItems_pairwise { p with sortOrder := "asc" }
      rw [show ({ p with sortOrder := "asc" } :
          BuildListItemsParams).sortOrder = "asc" from rfl, easc] at h
      exact h.imp (fun hab =>
        (listItemLe_eq_true_iff ListViewSortOrder.asc _ _).mp hab)
    · have h := buildListItems_pairwise { p with sortOrder := "desc" }
      rw [show ({ p with sortOrder := "desc" } :
          BuildListItemsParams).sortOrder = "desc" from rfl, edesc] at h
      exact h.imp (fun hab =>
        (listItemLe_eq_true_iff ListViewSortOrder.desc _ _).mp hab)
  · intro items preset
    constructor
    · have h := buildListGroups_ordered items preset "asc"
      rw [easc] at h
      exact h
    · have h := buildListGroups_ordered items preset "desc"
      rw [edesc] at h
      exact h
  · intro p
    unfold sortListItems
    exact List.mergeSort_of_sorted (buildListItems_pairwise p)

/-! Claim C7: `dailyNoteCount` aggregates. -/

mutual

/-- Number of descendant items of a finalized node with
`dailyNoteExists = true`. -/
def descDailyCount : ListGroupNode → Nat
  | ListGroupNode.mk _ _ groups items _ _ =>
    items.countP (fun it => it.dailyNoteExists) + descDailyCountList groups

/-- Number of descendant daily-note items of a forest. -/
def descDailyCountList : List ListGroupNode → Nat
  | [] => 0
  | n :: rest => descDailyCount n + descDailyCountList rest

end

mutual

/-- Count invariant of one node: its stored `dailyNoteCount` is the
descendant daily-note count, computed as the children's sum when it has
child groups (and then it carries no items) and as the count over its own
items otherwise; recursively so for all descendants. -/
def countsCorrect : ListGroupNode → Prop
  | ListGroupNode.mk _ _ groups items c _ =>
    c = items.countP (fun it => it.dailyNoteExists) +
        descDailyCountList groups ∧
    (groups ≠ [] → items = [] ∧
      c = (groups.map ListGroupNode.dailyNoteCount).sum) ∧
    (groups = [] → c = items.countP (fun it => it.dailyNoteExists)) ∧
    countsCorrectList groups

/-- Count invariant of every node of a forest. -/
def countsCorrectList : List ListGroupNode → Prop
  | [] => True
  | n :: rest => countsCorrect n ∧ countsCorrectList rest

end

theorem countsCorrectList_iff (ns : List ListGroupNode) :
    countsCorrectList ns ↔ ∀ n ∈ ns, countsCorrect n := by
  induction ns with
  | nil => simp [countsCorrectList]
  | cons n rest ih => simp [countsCorrectList, ih]

theorem countsCorrect_count_eq {n : ListGroupNode} (h : countsCorrect n) :
    n.dailyNoteCount = descDailyCount n := by
  cases n with
  | mk id label groups items c maxE =>
    rw [countsCorrect] at h
    rw [descDailyCount]
    exact h.1

theorem foldl_add_dailyCount (l : List ListItem) (n0 : Nat) :
    l.foldl (fun sum it => sum + (if it.dailyNoteExists then 1 else 0)) n0 =
      n0 + l.countP (fun it => it.dailyNoteExists) := by
  induction l generalizing n0 with
  | nil => simp
  | cons x xs ih =>
    simp only [List.foldl_cons, ih, List.countP_cons]
    by_cases hx : x.dailyNoteExists
    · simp [hx]
      omega
    · simp [hx]

theorem foldl_add_groupCount (l : List ListGroupNode) (n0 : Nat) :
    l.foldl (fun sum g => sum + g.dailyNoteCount) n0 =
      n0 + (l.map ListGroupNode.dailyNoteCount).sum := by
  induction l generalizing n0 with
  | nil => simp
  | cons x xs ih =>
    simp only [List.foldl_cons, ih, List.map_cons, List.sum_cons]
    omega

theorem descDailyCountList_eq_sum {ns : List ListGroupNode}
    (h : ∀ n ∈ ns, n.dailyNoteCount = descDailyCount n) :
    (ns.map ListGroupNode.dailyNoteCount).sum = descDailyCountList ns := by
  induction ns with
  | nil => simp [descDailyCountList]
  | cons n rest ih =>
    rw [List.map_cons, List.sum_cons, descDailyCountList,
      ← h n (List.mem_cons_self _ _),
      ih (fun m hm => h m (List.mem_cons_of_mem _ hm))]

theorem descDailyCountList_perm {ns ms : List ListGroupNode}
    (h : ns.Perm ms) : descDailyCountList ns = descDailyCountList ms := by
  have e1 : ∀ l : List ListGroupNode,
      descDailyCountList l = (l.map descDailyCount).sum := by
    intro l
    induction l with
    | nil => simp [descDailyCountList]
    | cons n rest ih => simp [descDailyCountList, ih]
  rw [e1, e1, (h.map descDailyCount).sum_eq]

mutual

theorem finalize_counts (ord : ListViewSortOrder) (n : GNodeInternal) :
    countsCorrect (finalize ord n) := by
  cases n with
  | mk id label children items maxE =>
    rw [finalize]
    have hmemc : ∀ g ∈ (finalizeChildren ord children).mergeSort
        (groupLeFinal ord), countsCorrect g := by
      intro g hg
      exact finalizeChildren_counts ord children g (List.mem_mergeSort.mp hg)
    by_cases hg :
        ((finalizeChildren ord children).mergeSort (groupLeFinal ord)).isEmpty
    · have hgs : (finalizeChildren ord children).mergeSort
          (groupLeFinal ord) = [] := List.isEmpty_iff.mp hg
      rw [countsCorrect]
      rw [hgs]
      simp only [if_pos List.isEmpty_nil]
      refine ⟨?_, by simp, ?_, trivial⟩
      · rw [descDailyCountList, foldl_add_dailyCount,
          ((items.mergeSort_perm (listItemLe ord)).countP_eq _)]
        omega
      · intro _
        rw [foldl_add_dailyCount,
          ((items.mergeSort_perm (listItemLe ord)).countP_eq _)]
        omega
    · rw [countsCorrect]
      simp only [if_neg hg]
      have hsum : ((finalizeChildren ord children).mergeSort
            (groupLeFinal ord)).foldl (fun sum g => sum + g.dailyNoteCount) 0 =
          descDailyCountList ((finalizeChildren ord children).mergeSort
            (groupLeFinal ord)) := by
        rw [foldl_add_groupCount, Nat.zero_add]
        exact descDailyCountList_eq_sum
          (fun m hm => countsCorrect_count_eq (hmemc m hm))
      refine ⟨?_, ?_, ?_, (countsCorrectList_iff _).mpr hmemc⟩
      · rw [hsum]
        simp
      · intro _
        constructor
        · simp
        · rw [foldl_add_groupCount, Nat.zero_add]
      · intro he
        exact absurd (List.isEmpty_iff.mpr he) hg

theorem finalizeChildren_counts (ord : ListViewSortOrder)
    (l : List (String × GNodeInternal)) :
    ∀ g ∈ finalizeChildren ord l, countsCorrect g := by
  cases l with
  | nil =>
    intro g hg
    rw [finalizeChildren] at hg
    exact absurd hg (List.not_mem_nil g)
  | cons kv rest =>
    intro g hg
    rw [finalizeChildren] at hg
    rcases List.mem_cons.mp hg with h | h
    · rw [h]
      exact finalize_counts ord kv.2
    · exact finalizeChildren_counts ord rest g h

end

/-- C7: in the tree returned by `buildListGroups`, every node's
`dailyNoteCount` equals the number of descendant items with
`dailyNoteExists = true`, computed for internal nodes as the sum of the
children's counts and for leaves as the count over the node's own
items. -/
theorem C7_dailyNoteCount_correct (items : List ListItem)
    (preset sortOrder : String) :
    countsCorrectList (buildListGroups items preset sortOrder) := by
  unfold buildListGroups
  dsimp only
  rw [countsCorrectList_iff]
  intro g hg
  exact finalizeChildren_counts _ _ g (List.mem_mergeSort.mp hg)

/-! Claim C8: well-formedness of the created-on-day index is preserved by
create/delete/rename operations. -/

/-- Structural part of the bucket invariant: both arrays sorted by path
with no duplicate paths, no path in both arrays, and files classified into
the right array (`notes` for note-like files, `files` otherwise).  The
empty bucket satisfies it. -/
def BucketParts (b : CreatedOnDayBucket) : Prop :=
  b.notes.Pairwise pathLe ∧ (b.notes.map TFile.path).Nodup ∧
  b.files.Pairwise pathLe ∧ (b.files.map TFile.path).Nodup ∧
  (∀ q ∈ b.notes.map TFile.path, q ∉ b.files.map TFile.path) ∧
  (∀ f ∈ b.notes, isNoteLikeFile f = true) ∧
  (∀ f ∈ b.files, isNoteLikeFile f = false)

/-- The full bucket invariant: structure plus non-emptiness (empty buckets
are removed from the index, never retained). -/
def BucketWF (b : CreatedOnDayBucket) : Prop :=
  BucketParts b ∧ (b.notes ≠ [] ∨ b.files ≠ [])

/-- The index invariant: unique date keys and well-formed buckets. -/
def IndexWF (idx : List (String × CreatedOnDayBucket)) : Prop :=
  ((idx.map Prod.fst).Nodup) ∧ ∀ kv ∈ idx, BucketWF kv.2

theorem mem_upsert_iff {arr : List TFile} {file g : TFile} :
    g ∈ upsertSortedByPath arr file ↔
      g = file ∨ (g ∈ arr ∧ g.path ≠ file.path) := by
  unfold upsertSortedByPath
  rw [List.Perm.mem_iff (List.perm_orderedInsert pathLe file _)]
  simp [List.mem_filter, bne_iff_ne]

theorem upsert_sorted {arr : List TFile} (file : TFile)
    (hs : arr.Pairwise pathLe) :
    (upsertSortedByPath arr file).Pairwise pathLe := by
  unfold upsertSortedByPath
  exact List.Sorted.orderedInsert file _
    (List.Pairwise.sublist (List.filter_sublist arr) hs)

theorem upsert_nodup_paths {arr : List TFile} (file : TFile)
    (hnd : (arr.map TFile.path).Nodup) :
    ((upsertSortedByPath arr file).map TFile.path).Nodup := by
  unfold upsertSortedByPath
  have hperm := (List.perm_orderedInsert pathLe file
    (arr.filter (fun f => f.path != file.path))).map TFile.path
  rw [List.Perm.nodup_iff hperm]
  rw [List.map_cons, List.nodup_cons]
  constructor
  · intro hmem
    rcases List.mem_map.mp hmem with ⟨g, hg, hgp⟩
    have := List.of_mem_filter hg
    rw [bne_iff_ne] at this
    exact this hgp
  · exact List.Nodup.sublist
      (List.Sublist.map TFile.path (List.filter_sublist arr)) hnd

theorem removeByPath_sublist (arr : List TFile) (path : String) :
    (removeByPath arr path).Sublist arr := by
  unfold removeByPath
  exact List.eraseP_sublist arr

theorem removeFromBucket_parts {b : CreatedOnDayBucket} (path : String)
    (h : BucketParts b) : BucketParts (removeFromBucket b path) := by
  obtain ⟨h1, h2, h3, h4, h5, h6, h7⟩ := h
  unfold removeFromBucket
  refine ⟨List.Pairwise.sublist (removeByPath_sublist _ _) h1,
    List.Nodup.sublist (List.Sublist.map _ (removeByPath_sublist _ _)) h2,
    List.Pairwise.sublist (removeByPath_sublist _ _) h3,
    List.Nodup.sublist (List.Sublist.map _ (removeByPath_sublist _ _)) h4,
    ?_, ?_, ?_⟩
  · intro q hq
    have hq' := (List.Sublist.map TFile.path
      (removeByPath_sublist b.notes path)).mem hq
    intro hq2
    exact h5 q hq' ((List.Sublist.map TFile.path
      (removeByPath_sublist b.files path)).mem hq2)
  · intro f hf
    exact h6 f ((removeByPath_sublist b.notes path).mem hf)
  · intro f hf
    exact h7 f ((removeByPath_sublist b.files path).mem hf)

theorem empty_bucket_parts : BucketParts { notes := [], files := [] } := by
  simp [BucketParts]

theorem prev_bucket_parts {idx : List (String × CreatedOnDayBucket)}
    (dateStr : String) (h : IndexWF idx) :
    BucketParts ((getKey? idx dateStr).getD { notes := [], files := [] }) := by
  cases hg : getKey? idx dateStr with
  | none => exact empty_bucket_parts
  | some b =>
    simp only [Option.getD_some]
    exact (h.2 (dateStr, b) (mem_of_getKey?_eq_some hg)).1

theorem addBucket_note_wf {prev : CreatedOnDayBucket} {file : TFile}
    (hparts : BucketParts prev) (hnl : isNoteLikeFile file = true) :
    BucketWF
      { notes := upsertSortedByPath prev.notes file
        files := prev.files.filter (fun f => f.path != file.path) } := by
  obtain ⟨h1, h2, h3, h4, h5, h6, h7⟩ := hparts
  refine ⟨⟨upsert_sorted file h1, upsert_nodup_paths file h2,
    List.Pairwise.sublist (List.filter_sublist _) h3,
    List.Nodup.sublist (List.Sublist.map _ (List.filter_sublist _)) h4,
    ?_, ?_, ?_⟩, Or.inl ?_⟩
  · intro q hq hq2
    rcases List.mem_map.mp hq with ⟨g, hg, hgp⟩
    rcases List.mem_map.mp hq2 with ⟨g', hg', hgp'⟩
    have hgne := List.of_mem_filter hg'
    rw [bne_iff_ne] at hgne
    rcases mem_upsert_iff.mp hg with he | ⟨hgmem, hgne2⟩
    · subst he
      exact hgne (hgp' ▸ hgp.symm ▸ rfl)
    · have hqn : q ∈ prev.notes.map TFile.path :=
        hgp ▸ List.mem_map_of_mem TFile.path hgmem
      have hqf : q ∈ prev.files.map TFile.path :=
        hgp' ▸ List.mem_map_of_mem TFile.path
          ((List.filter_sublist _).mem hg')
      exact h5 q hqn hqf
  · intro f hf
    rcases mem_upsert_iff.mp hf with he | ⟨hfm, _⟩
    · rw [he]
      exact hnl
    · exact h6 f hfm
  · intro f hf
    exact h7 f ((List.filter_sublist _).mem hf)
  · exact List.ne_nil_of_mem (mem_upsert_iff.mpr (Or.inl rfl))

theorem addBucket_file_wf {prev : CreatedOnDayBucket} {file : TFile}
    (hparts : BucketParts prev) (hnl : isNoteLikeFile file = false) :
    BucketWF
      { notes := prev.notes.filter (fun f => f.path != file.path)
        files := upsertSortedByPath prev.files file } := by
  obtain ⟨h1, h2, h3, h4, h5, h6, h7⟩ := hparts
  refine ⟨⟨List.Pairwise.sublist (List.filter_sublist _) h1,
    List.Nodup.sublist (List.Sublist.map _ (List.filter_sublist _)) h2,
    upsert_sorted file h3, upsert_nodup_paths file h4,
    ?_, ?_, ?_⟩, Or.inr ?_⟩
  · intro q hq hq2
    rcases List.mem_map.mp hq with ⟨g, hg, hgp⟩
    rcases List.mem_map.mp hq2 with ⟨g', hg', hgp'⟩
    have hgne := List.of_mem_filter hg
    rw [bne_iff_ne] at hgne
    rcases mem_upsert_iff.mp hg' with he | ⟨hgmem, hgne2⟩
    · subst he
      exact hgne (hgp ▸ hgp'.symm ▸ rfl)
    · have hqn : q ∈ prev.notes.map TFile.path :=
        hgp ▸ List.mem_map_of_mem TFile.path ((List.filter_sublist _).mem hg)
      have hqf : q ∈ prev.files.map TFile.path :=
        hgp' ▸ List.mem_map_of_mem TFile.path hgmem
      exact h5 q hqn hqf
  · intro f hf
    exact h6 f ((List.filter_sublist _).mem hf)
  · intro f hf
    rcases mem_upsert_iff.mp hf with he | ⟨hfm, _⟩
    · rw [he]
      exact hnl
    · exact h7 f hfm
  · exact List.ne_nil_of_mem (mem_upsert_iff.mpr (Or.inl rfl))

theorem setKey_IndexWF {idx : List (String × CreatedOnDayBucket)}
    {k : String} {b : CreatedOnDayBucket} (h : IndexWF idx)
    (hb : BucketWF b) : IndexWF (setKey idx k b) := by
  constructor
  · by_cases hk : k ∈ idx.map Prod.fst
    · rw [setKey_map_fst_of_mem b hk]
      exact h.1
    · rw [setKey_map_fst_of_not_mem b hk]
      exact List.Nodup.append h.1 (List.nodup_singleton k)
        (fun a ha hb' => hk ((List.mem_singleton.mp hb') ▸ ha))
  · intro kv hkv
    rcases mem_of_mem_setKey hkv with h' | h'
    · exact h.2 kv h'
    · rw [h']
      exact hb

theorem eraseKey_IndexWF {idx : List (String × CreatedOnDayBucket)}
    (k : String) (h : IndexWF idx) : IndexWF (eraseKey idx k) := by
  constructor
  · exact List.Nodup.sublist
      (List.Sublist.map Prod.fst (List.filter_sublist idx)) h.1
  · intro kv hkv
    exact h.2 kv ((List.filter_sublist idx).mem hkv)

theorem addFile_IndexWF (fmt : Int → String)
    {idx : List (String × CreatedOnDayBucket)} (file : TFile)
    (h : IndexWF idx) : IndexWF (addFileToCreatedOnDayIndex fmt idx file) := by
  unfold addFileToCreatedOnDayIndex
  by_cases h1 : shouldIndexFile file = false
  · rw [if_pos h1]
    exact h
  · rw [if_neg h1]
    by_cases h2 : file.ctime = 0
    · rw [if_pos h2]
      exact h
    · rw [if_neg h2]
      dsimp only
      by_cases hnl : isNoteLikeFile file = true
      · rw [if_pos hnl]
        exact setKey_IndexWF h
          (addBucket_note_wf (prev_bucket_parts (fmt file.ctime) h) hnl)
      · rw [if_neg hnl]
        exact setKey_IndexWF h
          (addBucket_file_wf (prev_bucket_parts (fmt file.ctime) h)
            (Bool.not_eq_true _ ▸ hnl))

theorem removeScanAll_keys_sublist (idx : List (String × CreatedOnDayBucket))
    (path : String) :
    ((removeScanAll idx path).map Prod.fst).Sublist (idx.map Prod.fst) := by
  induction idx with
  | nil => simp [removeScanAll]
  | cons kv rest ih =>
    rw [removeScanAll]
    by_cases hc1 : (removeFromBucket kv.2 path).notes.length =
        kv.2.notes.length ∧
        (removeFromBucket kv.2 path).files.length = kv.2.files.length
    · rw [if_pos hc1, List.map_cons, List.map_cons]
      exact List.Sublist.cons₂ _ ih
    · rw [if_neg hc1]
      by_cases hc2 : (removeFromBucket kv.2 path).notes.length = 0 ∧
          (removeFromBucket kv.2 path).files.length = 0
      · rw [if_pos hc2, List.map_cons]
        exact List.Sublist.cons _ ih
      · rw [if_neg hc2, List.map_cons, List.map_cons]
        exact List.Sublist.cons₂ _ ih

theorem bucket_nonempty_of_not_both_zero {b : CreatedOnDayBucket}
    (h : ¬(b.notes.length = 0 ∧ b.files.length = 0)) :
    b.notes ≠ [] ∨ b.files ≠ [] := by
  by_cases h0 : b.notes.length = 0
  · right
    intro he
    exact h ⟨h0, by simp [he]⟩
  · left
    intro he
    exact h0 (by simp [he])

theorem removeScanAll_values {idx : List (String × CreatedOnDayBucket)}
    (path : String) (hvals : ∀ kv ∈ idx, BucketWF kv.2) :
    ∀ kv ∈ removeScanAll idx path, BucketWF kv.2 := by
  induction idx with
  | nil =>
    intro kv hkv
    simp [removeScanAll] at hkv
  | cons kv0 rest ih =>
    intro kv hkv
    rw [removeScanAll] at hkv
    have htail : ∀ kv1 ∈ rest, BucketWF kv1.2 :=
      fun kv1 h1 => hvals kv1 (List.mem_cons_of_mem _ h1)
    by_cases hc1 : (removeFromBucket kv0.2 path).notes.length =
        kv0.2.notes.length ∧
        (removeFromBucket kv0.2 path).files.length = kv0.2.files.length
    · rw [if_pos hc1] at hkv
      rcases List.mem_cons.mp hkv with he | hm
      · rw [he]
        exact hvals kv0 (List.mem_cons_self _ _)
      · exact ih htail kv hm
    · rw [if_neg hc1] at hkv
      by_cases hc2 : (removeFromBucket kv0.2 path).notes.length = 0 ∧
          (removeFromBucket kv0.2 path).files.length = 0
      · rw [if_pos hc2] at hkv
        exact ih htail kv hkv
      · rw [if_neg hc2] at hkv
        rcases List.mem_cons.mp hkv with he | hm
        · rw [he]
          exact ⟨removeFromBucket_parts path
              (hvals kv0 (List.mem_cons_self _ _)).1,
            bucket_nonempty_of_not_both_zero hc2⟩
        · exact ih htail kv hm

theorem removeScanAll_IndexWF {idx : List (String × CreatedOnDayBucket)}
    (path : String) (h : IndexWF idx) : IndexWF (removeScanAll idx path) :=
  ⟨List.Nodup.sublist (removeScanAll_keys_sublist idx path) h.1,
    removeScanAll_values path h.2⟩

theorem removeFile_IndexWF (fmt : Int → String)
    {idx : List (String × CreatedOnDayBucket)} (path : String)
    (ctime : Option Int) (h : IndexWF idx) :
    IndexWF (removeFileFromCreatedOnDayIndex fmt idx path ctime) := by
  unfold removeFileFromCreatedOnDayIndex
  by_cases hp : path = ""
  · rw [if_pos hp]
    exact h
  · rw [if_neg hp]
    cases hds : removeFileDateStr ctime fmt with
    | none =>
      simp only [hds]
      exact removeScanAll_IndexWF path h
    | some ds =>
      simp only [hds]
      cases hg : getKey? idx ds with
      | none =>
        simp only [hg]
        exact removeScanAll_IndexWF path h
      | some prev =>
        simp only [hg]
        by_cases hc1 : (removeFromBucket prev path).notes.length =
            prev.notes.length ∧
            (removeFromBucket prev path).files.length = prev.files.length
        · rw [if_pos hc1]
          exact h
        · rw [if_neg hc1]
          by_cases hc2 : (removeFromBucket prev path).notes.length = 0 ∧
              (removeFromBucket prev path).files.length = 0
          · rw [if_pos hc2]
            exact eraseKey_IndexWF _ h
          · rw [if_neg hc2]
            exact setKey_IndexWF h
              ⟨removeFromBucket_parts path
                  (h.2 (ds, prev) (mem_of_getKey?_eq_some hg)).1,
                bucket_nonempty_of_not_both_zero hc2⟩

theorem applyOp_IndexWF (fmt : Int → String)
    {idx : List (String × CreatedOnDayBucket)} (op : CreatedOnDayIndexOp)
    (h : IndexWF idx) : IndexWF (applyCreatedOnDayIndexOp fmt idx op) := by
  cases op with
  | create file => exact addFile_IndexWF fmt file h
  | delete path ctime => exact removeFile_IndexWF fmt path ctime h
  | rename file oldPath ctime0 =>
    cases ctime0 with
    | none =>
      dsimp only [applyCreatedOnDayIndexOp]
      split
      · exact addFile_IndexWF fmt file
          (removeFile_IndexWF fmt file.path (some file.ctime)
            (removeFile_IndexWF fmt oldPath (some file.ctime) h))
      · exact removeFile_IndexWF fmt file.path (some file.ctime)
          (removeFile_IndexWF fmt oldPath (some file.ctime) h)
    | some t =>
      dsimp only [applyCreatedOnDayIndexOp]
      split
      · exact addFile_IndexWF fmt file
          (removeFile_IndexWF fmt file.path (some t)
            (removeFile_IndexWF fmt oldPath (some t) h))
      · exact removeFile_IndexWF fmt file.path (some t)
          (removeFile_IndexWF fmt oldPath (some t) h)

/-- C8: any sequence of create/delete/rename operations applied through
`applyCreatedOnDayIndexOp` to a well-formed created-on-day index keeps it
well-formed: each path sits in at most one of a bucket's arrays (notes for
md/canvas files, files otherwise), no retained bucket is empty in both
arrays, and both arrays stay sorted by path (with unique date keys). -/
theorem C8_index_ops_preserve_WF (fmt : Int → String)
    (ops : List CreatedOnDayIndexOp)
    (idx : List (String × CreatedOnDayBucket)) (h : IndexWF idx) :
    IndexWF (ops.foldl (applyCreatedOnDayIndexOp fmt) idx) := by
  induction ops generalizing idx with
  | nil => exact h
  | cons op rest ih => exact ih _ (applyOp_IndexWF fmt op h)

/-- Concrete timezone formatting stub mapping every timestamp to one day;
the invariant holds for every such function. -/
def sampleFmt : Int → String := fun _ => "2025-12-14"

/-- Sample operation sequence: two creations, a rename, a deletion. -/
def sampleOps : List CreatedOnDayIndexOp :=
  [CreatedOnDayIndexOp.create sampleNote,
   CreatedOnDayIndexOp.create sampleDailyFile15,
   CreatedOnDayIndexOp.rename
     { path := "Notes/renamed.md", extension := "md",
       ctime := 1765700000000 } "Notes/idea.md" none,
   CreatedOnDayIndexOp.delete "Daily/2025-12-15.md" (some 1765760000000)]

/-- Witness for C8: the sample operation sequence applied to the empty
(trivially well-formed) index yields a well-formed index. -/
theorem C8_witness :
    IndexWF (sampleOps.foldl (applyCreatedOnDayIndexOp sampleFmt) []) :=
  C8_index_ops_preserve_WF sampleFmt sampleOps []
    ⟨List.nodup_nil, fun kv hkv => absurd hkv (List.not_mem_nil kv)⟩

/-! Claim C9: view-state reconciliation is idempotent, prunes stale keys
and preserves present ones. -/

theorem getKey?_filter_contains {β : Type} (m : List (String × β))
    (ids : List String) (k : String) :
    getKey? (m.filter (fun kv => ids.contains kv.1)) k =
      if k ∈ ids then getKey? m k else none := by
  induction m with
  | nil =>
    simp only [List.filter_nil, getKey?]
    split <;> rfl
  | cons kv rest ih =>
    by_cases hc : kv.1 ∈ ids
    · rw [List.filter_cons_of_pos (by simpa using hc)]
      by_cases hk : kv.1 = k
      · subst hk
        simp [getKey?, hc]
      · simp only [getKey?, if_neg hk]
        exact ih
    · rw [List.filter_cons_of_neg (by simpa using hc)]
      by_cases hk : kv.1 = k
      · subst hk
        rw [ih, if_neg hc, if_neg hc]
      · simp only [getKey?, if_neg hk]
        exact ih

theorem getKey?_seedMissing {β : Type} (dflt : String → β)
    (ids : List String) (st : List (String × β)) (k : String) :
    getKey? (ids.foldl (seedMissingStep dflt) st) k =
      match getKey? st k with
      | some v => some v
      | none => if k ∈ ids then some (dflt k) else none := by
  induction ids generalizing st with
  | nil =>
    cases h : getKey? st k <;> simp [h]
  | cons id rest ih =>
    rw [List.foldl_cons, ih]
    unfold seedMissingStep
    cases hs : getKey? st id with
    | some v =>
      by_cases hk : k = id
      · subst hk
        simp [hs]
      · cases h : getKey? st k <;> simp [h, hk]
    | none =>
      by_cases hk : k = id
      · subst hk
        rw [getKey?_setKey_self, hs]
        simp
      · rw [getKey?_setKey_of_ne st (dflt id) hk]
        cases h : getKey? st k <;> simp [h, hk]

theorem seedMissing_of_total {β : Type} (dflt : String → β)
    (ids : List String) (st : List (String × β))
    (h : ∀ id ∈ ids, getKey? st id ≠ none) :
    ids.foldl (seedMissingStep dflt) st = st := by
  induction ids with
  | nil => rfl
  | cons id rest ih =>
    rw [List.foldl_cons]
    have hstep : seedMissingStep dflt st id = st := by
      unfold seedMissingStep
      cases hs : getKey? st id with
      | none => exact absurd hs (h id (List.mem_cons_self _ _))
      | some v => rfl
    rw [hstep]
    exact ih (fun i hi => h i (List.mem_cons_of_mem _ hi))

theorem dayChildStep_eq_seedMissing (m : List (String × DayChildOpenState))
    (uid : String) :
    dayChildStep m uid =
      seedMissingStep (fun _ => { files := false }) m uid := by
  unfold dayChildStep seedMissingStep
  cases hs : getKey? m uid with
  | none => rfl
  | some prev => exact setKey_eq_self (by rw [hs])

theorem dayChildFold_eq (uids : List String)
    (st : List (String × DayChildOpenState)) :
    uids.foldl dayChildStep st =
      uids.foldl (seedMissingStep (fun _ => { files := false })) st := by
  induction uids generalizing st with
  | nil => rfl
  | cons uid rest ih =>
    rw [List.foldl_cons, List.foldl_cons, dayChildStep_eq_seedMissing, ih]

theorem filter_contains_sound {β : Type} (m : List (String × β))
    (ids : List String) :
    ∀ kv ∈ m.filter (fun kv => ids.contains kv.1), kv.1 ∈ ids := by
  intro kv hkv
  have := List.of_mem_filter hkv
  simpa using this

theorem reconcile_seed_generic {β : Type} (dflt : String → β)
    (ids : List String) (st : List (String × β)) :
    (((ids.foldl (seedMissingStep dflt) st).filter
          (fun kv => ids.contains kv.1)).filter
        (fun kv => ids.contains kv.1) =
      (ids.foldl (seedMissingStep dflt) st).filter
        (fun kv => ids.contains kv.1)) ∧
    (ids.foldl (seedMissingStep dflt)
        ((ids.foldl (seedMissingStep dflt) st).filter
          (fun kv => ids.contains kv.1)) =
      (ids.foldl (seedMissingStep dflt) st).filter
        (fun kv => ids.contains kv.1)) := by
  constructor
  · rw [List.filter_filter]
    simp
  · apply seedMissing_of_total
    intro id hid
    rw [getKey?_filter_contains]
    rw [if_pos hid]
    rw [getKey?_seedMissing]
    cases h : getKey? st id with
    | some v => simp
    | none => simp [hid]

/-- C9: each of the three view-state reconciliations of `computeList` is
idempotent (a second run with the same group ids / items is the identity),
removes every persisted key absent from the new id set, preserves every
present key's prior value, and seeds a missing group id open exactly when
it lies on today's path. -/
theorem C9_reconciliation_idempotent :
    (∀ (groupIds todayPath : List String) (st : List (String × Bool)),
      reconcileGroupOpenState groupIds todayPath
          (reconcileGroupOpenState groupIds todayPath st) =
        reconcileGroupOpenState groupIds todayPath st ∧
      (∀ k, k ∉ groupIds →
        getKey? (reconcileGroupOpenState groupIds todayPath st) k = none) ∧
      (∀ k v, k ∈ groupIds → getKey? st k = some v →
        getKey? (reconcileGroupOpenState groupIds todayPath st) k = some v) ∧
      (∀ k, k ∈ groupIds → getKey? st k = none →
        getKey? (reconcileGroupOpenState groupIds todayPath st) k =
          some (todayPath.contains k))) ∧
    (∀ (items : List ListItem) (st : List (String × Bool)),
      reconcileDayOpenState items (reconcileDayOpenState items st) =
        reconcileDayOpenState items st ∧
      (∀ k, k ∉ items.map ListItem.dateUID →
        getKey? (reconcileDayOpenState items st) k = none) ∧
      (∀ k v, k ∈ items.map ListItem.dateUID → getKey? st k = some v →
        getKey? (reconcileDayOpenState items st) k = some v)) ∧
    (∀ (items : List ListItem) (st : List (String × DayChildOpenState)),
      reconcileDayChildOpenState items (reconcileDayChildOpenState items st) =
        reconcileDayChildOpenState items st ∧
      (∀ k, k ∉ items.map ListItem.dateUID →
        getKey? (reconcileDayChildOpenState items st) k = none) ∧
      (∀ k v, k ∈ items.map ListItem.dateUID → getKey? st k = some v →
        getKey? (reconcileDayChildOpenState items st) k = some v)) := by
  refine ⟨?_, ?_, ?_⟩
  · intro groupIds todayPath st
    refine ⟨?_, ?_, ?_, ?_⟩
    · unfold reconcileGroupOpenState
      rw [(reconcile_seed_generic _ groupIds st).2]
      exact (reconcile_seed_generic (fun id => todayPath.contains id)
        groupIds st).1
    · intro k hk
      unfold reconcileGroupOpenState
      rw [getKey?_filter_contains, if_neg hk]
    · intro k v hk hv
      unfold reconcileGroupOpenState
      rw [getKey?_filter_contains, if_pos hk, getKey?_seedMissing, hv]
    · intro k hk hv
      unfold reconcileGroupOpenState
      rw [getKey?_filter_contains, if_pos hk, getKey?_seedMissing, hv]
      simp [hk]
  · intro items st
    refine ⟨?_, ?_, ?_⟩
    · unfold reconcileDayOpenState
      dsimp only
      rw [(reconcile_seed_generic _ (items.map ListItem.dateUID) st).2]
      exact (reconcile_seed_generic (fun _ => false)
        (items.map ListItem.dateUID) st).1
    · intro k hk
      unfold reconcileDayOpenState
      dsimp only
      rw [getKey?_filter_contains, if_neg hk]
    · intro k v hk hv
      unfold reconcileDayOpenState
      dsimp only
      rw [getKey?_filter_contains, if_pos hk, getKey?_seedMissing, hv]
  · intro items st
    have hrw : ∀ st0 : List (String × DayChildOpenState),
        reconcileDayChildOpenState items st0 =
          ((items.map ListItem.dateUID).foldl
              (seedMissingStep (fun _ => { files := false })) st0).filter
            (fun kv => (items.map ListItem.dateUID).contains kv.1) := by
      intro st0
      unfold reconcileDayChildOpenState
      dsimp only
      rw [dayChildFold_eq]
    refine ⟨?_, ?_, ?_⟩
    · rw [hrw, hrw]
      rw [(reconcile_seed_generic _ (items.map ListItem.dateUID) st).2]
      exact (reconcile_seed_generic (fun _ => { files := false })
        (items.map ListItem.dateUID) st).1
    · intro k hk
      rw [hrw]
      rw [getKey?_filter_contains, if_neg hk]
    · intro k v hk hv
      rw [hrw]
      rw [getKey?_filter_contains, if_pos hk, getKey?_seedMissing, hv]

/-- Witness for C9 at a concrete state: id `2025/12` is kept with its
persisted value, id `2024` is pruned, and the run is idempotent. -/
theorem C9_witness :
    getKey? (reconcileGroupOpenState ["2025", "2025/12"] ["2025"]
      [("2025/12", true), ("2024", false)]) "2025/12" = some true ∧
    getKey? (reconcileGroupOpenState ["2025", "2025/12"] ["2025"]
      [("2025/12", true), ("2024", false)]) "2024" = none ∧
    getKey? (reconcileGroupOpenState ["2025", "2025/12"] ["2025"]
      [("2025/12", true), ("2024", false)]) "2025" = some true :=
  ⟨(C9_reconciliation_idempotent.1 ["2025", "2025/12"] ["2025"]
      [("2025/12", true), ("2024", false)]).2.2.1 "2025/12" true
      (by decide) (by decide),
   (C9_reconciliation_idempotent.1 ["2025", "2025/12"] ["2025"]
      [("2025/12", true), ("2024", false)]).2.1 "2024" (by decide),
   (C9_reconciliation_idempotent.1 ["2025", "2025/12"] ["2025"]
      [("2025/12", true), ("2024", false)]).2.2.2 "2025" (by decide)
      (by decide)⟩
